import Mathlib

/-!
Verification of the BORIS Event Timeline & Time-Budget Engine.

This file gives a shallow embedding, in Lean 4, of the core temporal logic of
the BORIS repository (`boris/project_functions.py`, `boris/time_budget_widget.py`):
the state pairing engine (`events_start_stop`), the pairing validator
(`check_state_events_obs`), the coverage/exhaustivity calculator
(`check_observation_exhaustivity`), the analysis-window clipper (the
arbitrary-interval branch of `time_budget`), the excluded-behavior percentage
computation of the time-budget widget, and the unpaired-state auto-fixer
(`fix_unpaired_state_events`).

Modelling conventions:
* event times (Python `Decimal`) are rationals `ℚ`;
* Python lists/dicts are Lean lists / insertion-ordered association lists;
* the event record `[time, subject, code, modifier, comment]` is the structure
  `Event`; the ethogram `{idx: {code, type, ...}}` is a `List EthogramEntry`
  in insertion order;
* fallible lookups (`dict[key]`, `ethogram` scans) return `Option`.
-/

/-- One coded event: Python list `[time, subject, code, modifier, comment]`
(field indices `EVENT_TIME_FIELD_IDX = 0` … `EVENT_COMMENT_FIELD_IDX = 4`). -/
structure Event where
  time : ℚ
  subject : String
  code : String
  modifier : String
  comment : String
deriving DecidableEq, Repr

/-- One ethogram row, restricted to the fields the engine reads:
behavior `code` and `type` (`"State event"` / `"Point event"` …). -/
structure EthogramEntry where
  code : String
  type : String
deriving DecidableEq, Repr

/-- Python `str.upper`, char by char (ASCII data in practice). -/
def strUpper (s : String) : String := ⟨s.data.map Char.toUpper⟩

/-- Substring occurrence test on char lists (Python `needle in hay`). -/
def subOccurs (needle : List Char) : List Char → Bool
  | [] => needle.isEmpty
  | c :: cs => needle.isPrefixOf (c :: cs) || subOccurs needle cs

/-- Python `needle in hay` on strings. -/
def strContains (hay needle : String) : Bool :=
  subOccurs needle.data hay.data

/-- Python string `<` (code-point lexicographic). -/
def charsLt : List Char → List Char → Bool
  | [], [] => false
  | [], _ :: _ => true
  | _ :: _, [] => false
  | a :: as, b :: bs =>
    if a.val < b.val then true
    else if b.val < a.val then false
    else charsLt as bs

/-- Python string `<` on `String`. -/
def pyStrLt (a b : String) : Bool := charsLt a.data b.data

/-- Insert into a list sorted by `pyStrLt` (ascending). -/
def insertStr (x : String) : List String → List String
  | [] => [x]
  | y :: ys => if pyStrLt y x then y :: insertStr x ys else x :: y :: ys

/-- Ascending insertion sort by `pyStrLt` (model of Python `sorted`). -/
def sortStrs : List String → List String
  | [] => []
  | x :: xs => insertStr x (sortStrs xs)

/-- First-occurrence deduplication with an accumulator of already-seen keys
(Python `set` insertion order / SQL `DISTINCT` scan order). -/
def distinctAux {α : Type} [BEq α] (seen : List α) : List α → List α
  | [] => []
  | x :: xs => if seen.contains x then distinctAux seen xs else x :: distinctAux (x :: seen) xs

/-- First-occurrence deduplication. -/
def distinctList {α : Type} [BEq α] (l : List α) : List α := distinctAux [] l

/-- Python `sorted(set(l))` for strings. -/
def sortedSet (l : List String) : List String := sortStrs (distinctList l)

/-- Modelled from the spec: `utilities.state_behavior_codes` (file
`boris/utilities.py` is not part of the provided sources).  Per §4.1/§4.3 the
State-code set is derived from the Ethogram Index as the codes whose type
contains `"STATE"` once upper-cased, exactly as `check_observation_exhaustivity`
derives it inline (`project_functions.py` lines 63-66). -/
def state_behavior_codes (ethogram : List EthogramEntry) : List String :=
  (ethogram.filter (fun b => strContains (strUpper b.type) "STATE")).map (fun b => b.code)

/-- `project_functions.event_type`: upper-cased type of the first ethogram
entry carrying the code, `none` when the code is absent. -/
def event_type (ethogram : List EthogramEntry) (code : String) : Option String :=
  (ethogram.find? (fun b => b.code == code)).map (fun b => strUpper b.type)

/-- Key predicate of the pairing engine: same subject, behavior code and
modifier string as event `e`. -/
def sameKey (e : Event) (x : Event) : Bool :=
  x.code == e.code && x.subject == e.subject && x.modifier == e.modifier

/-- Recursive core of `events_start_stop`: `processed` is the list of events
with strictly lower index (the prefix already traversed). -/
def essAux (sbc : List String) (processed : List Event) : List Event → List (Event × String)
  | [] => []
  | e :: rest =>
    let flag :=
      if sbc.contains e.code then
        if (processed.filter (sameKey e)).length % 2 == 1 then "STOP" else "START"
      else "POINT"
    (e, flag) :: essAux sbc (processed ++ [e]) rest

/-- `project_functions.events_start_stop` (lines 1051-1101): flag every event
with `"START"`/`"STOP"` (State codes, by parity of the count of earlier
same-key events) or `"POINT"` (any other code). -/
def events_start_stop (ethogram : List EthogramEntry) (events : List Event) :
    List (Event × String) :=
  essAux (state_behavior_codes ethogram) [] events

/-- Number of events of strictly lower index sharing subject, behavior code
and modifier string with `e` (the parity basis of the pairing engine). -/
def countEarlierSameKey (events : List Event) (i : Nat) (e : Event) : Nat :=
  ((events.take i).filter (sameKey e)).length

lemma essAux_getElem? (sbc : List String) :
    ∀ (l processed : List Event) (i : Nat) (e : Event), l[i]? = some e →
      (essAux sbc processed l)[i]? =
        some (e,
          if sbc.contains e.code then
            if ((processed ++ l.take i).filter (sameKey e)).length % 2 == 1 then "STOP"
            else "START"
          else "POINT") := by
  intro l
  induction l with
  | nil => intro processed i e he; simp at he
  | cons x xs ih =>
    intro processed i e he
    cases i with
    | zero =>
      simp at he
      subst he
      simp [essAux]
    | succ n =>
      simp only [List.getElem?_cons_succ] at he
      simpa [essAux, List.take_succ_cons, List.append_assoc] using
        ih (processed ++ [x]) n e he

lemma events_start_stop_getElem? (ethogram : List EthogramEntry) (events : List Event)
    (i : Nat) (e : Event) (he : events[i]? = some e) :
    (events_start_stop ethogram events)[i]? =
      some (e,
        if (state_behavior_codes ethogram).contains e.code then
          if countEarlierSameKey events i e % 2 == 1 then "STOP" else "START"
        else "POINT") := by
  simpa [countEarlierSameKey] using
    essAux_getElem? (state_behavior_codes ethogram) events [] i e he

/-- A behavior type counts as State when its upper-cased type contains
`"STATE"` (`cfg.STATE in type.upper()`). -/
def isStateType (t : String) : Bool := strContains (strUpper t) "STATE"

/-- C1.  The pairing engine flags Point-typed events `"POINT"`, and flags a
State-typed event `"STOP"` exactly when the number of earlier events (strictly
lower index) with the same subject, behavior code and modifier string is odd,
`"START"` when it is even; in particular four events of one State behavior and
one subject at times `t0 < t1 < t2 < t3` are flagged
`START, STOP, START, STOP`. -/
theorem events_start_stop_parity_statuses
    (ethogram : List EthogramEntry) (events : List Event) (i : Nat) (e : Event)
    (he : events[i]? = some e) :
    ((∀ b ∈ ethogram, b.code = e.code → isStateType b.type = false) →
      (events_start_stop ethogram events)[i]? = some (e, "POINT")) ∧
    (e.code ∈ state_behavior_codes ethogram →
      (events_start_stop ethogram events)[i]? =
        some (e, if Odd (countEarlierSameKey events i e) then "STOP" else "START")) ∧
    (∀ (code sub m cm : String) (t0 t1 t2 t3 : ℚ),
      t0 < t1 → t1 < t2 → t2 < t3 → code ∈ state_behavior_codes ethogram →
      (events_start_stop ethogram
          [⟨t0, sub, code, m, cm⟩, ⟨t1, sub, code, m, cm⟩,
           ⟨t2, sub, code, m, cm⟩, ⟨t3, sub, code, m, cm⟩]).map Prod.snd =
        ["START", "STOP", "START", "STOP"]) := by
  refine ⟨?_, ?_, ?_⟩
  · intro hpoint
    have hnm : e.code ∉ state_behavior_codes ethogram := by
      intro hc
      obtain ⟨b, hb, hbe⟩ := List.mem_map.mp hc
      have hbf := List.mem_filter.mp hb
      have hst : isStateType b.type = true := by simpa [isStateType] using hbf.2
      rw [hpoint b hbf.1 hbe] at hst
      exact Bool.false_ne_true hst
    have hnc : (state_behavior_codes ethogram).contains e.code = false := by
      simpa using hnm
    rw [events_start_stop_getElem? ethogram events i e he, hnc]
    simp
  · intro hmem
    rw [events_start_stop_getElem? ethogram events i e he]
    have hc : (state_behavior_codes ethogram).contains e.code = true := by
      simpa using hmem
    rw [hc]
    simp [Nat.odd_iff]
  · intro code sub m cm t0 t1 t2 t3 _ _ _ hmem
    have hc : (state_behavior_codes ethogram).contains code = true := by
      simpa using hmem
    simp [events_start_stop, essAux, sameKey, hc, hmem]

/-- Witness for C1 at a concrete input: a four-event stream of the single
State behavior `"run"` is flagged `START, STOP, START, STOP`. -/
theorem events_start_stop_parity_statuses_witness :
    (events_start_stop [⟨"run", "State event"⟩]
        [⟨0, "", "run", "", ""⟩, ⟨1, "", "run", "", ""⟩,
         ⟨2, "", "run", "", ""⟩, ⟨3, "", "run", "", ""⟩]).map Prod.snd =
      ["START", "STOP", "START", "STOP"] :=
  (events_start_stop_parity_statuses [⟨"run", "State event"⟩]
      [⟨0, "", "run", "", ""⟩] 0 ⟨0, "", "run", "", ""⟩ rfl).2.2
    "run" "" "" "" 0 1 2 3 zero_lt_one one_lt_two (by norm_num) (by decide)

/-- Counterexample to C6.  The behavior code `"walk"` is absent from the
Ethogram Index, yet the pairing engine does not pass the event through
unflagged / classified as neither State nor Point: it assigns it the status
`"POINT"` (the `else` branch of `events_start_stop`). -/
theorem events_start_stop_unknown_code_counterexample :
    ("walk" ∉ ([⟨"run", "State event"⟩] : List EthogramEntry).map (fun b => b.code)) ∧
    events_start_stop [⟨"run", "State event"⟩] [⟨0, "", "walk", "", ""⟩] =
      [(⟨0, "", "walk", "", ""⟩, "POINT")] := by
  constructor
  · decide
  · simp +decide [events_start_stop, essAux]

/-- C6 (amended).  An event whose behavior code is absent from the Ethogram
Index is classified as a Point event (status `"POINT"`) and included in the
flagged output at its position, with no failure; it is thereby excluded from
the START/STOP pairing of State codes. -/
theorem events_start_stop_unknown_code_amended
    (ethogram : List EthogramEntry) (events : List Event) (i : Nat) (e : Event)
    (he : events[i]? = some e)
    (habs : ∀ b ∈ ethogram, b.code ≠ e.code) :
    (events_start_stop ethogram events)[i]? = some (e, "POINT") := by
  have hnm : e.code ∉ state_behavior_codes ethogram := by
    intro hc
    obtain ⟨b, hb, hbe⟩ := List.mem_map.mp hc
    exact habs b (List.mem_filter.mp hb).1 hbe
  have hnc : (state_behavior_codes ethogram).contains e.code = false := by
    simpa using hnm
  rw [events_start_stop_getElem? ethogram events i e he, hnc]
  simp

/-- Witness for the amended C6 at a concrete input. -/
theorem events_start_stop_unknown_code_amended_witness :
    (events_start_stop [⟨"run", "State event"⟩] [⟨0, "", "walk", "", ""⟩])[0]? =
      some (⟨0, "", "walk", "", ""⟩, "POINT") :=
  events_start_stop_unknown_code_amended [⟨"run", "State event"⟩]
    [⟨0, "", "walk", "", ""⟩] 0 ⟨0, "", "walk", "", ""⟩ rfl (by decide)

/-! ### Pairing validator (`check_state_events_obs`, project_functions.py 248-323) -/

/-- Structured content of one line of the validator's report: the behavior,
modifier, subject and the timestamp stored in `memTime` when the unmatched
open occurred (`none` would mean a missing `memTime` key, which never
happens). -/
structure ReportEntry where
  behavior : String
  modifier : String
  subject : String
  time : Option ℚ
deriving DecidableEq, Repr

/-- Abstract result message of the validator: the early-return string
`"No behavior is defined as State event"`, the success string
`"No problem detected"`, or the formatted not-PAIRED report, represented by
the list of entries interpolated into its lines. -/
inductive CheckMsg where
  | noStateEvent : CheckMsg
  | noProblem : CheckMsg
  | unpaired : List ReportEntry → CheckMsg
deriving DecidableEq, Repr

/-- The validator's per-(subject, behavior) matching state: the Python list
`lst` of open `[behavior, modifier]` pairs and the dict `memTime` mapping each
open pair to the time it was opened. -/
structure MatchState where
  lst : List (String × String)
  memTime : List ((String × String) × ℚ)
deriving DecidableEq, Repr

/-- Python `del memTime[key]`. -/
def dictDel (m : List ((String × String) × ℚ)) (k : String × String) :
    List ((String × String) × ℚ) :=
  m.filter (fun kv => !(kv.1 == k))

/-- Python `memTime[key] = v` (replace in place when present, append when
absent). -/
def dictSet (m : List ((String × String) × ℚ)) (k : String × String) (v : ℚ) :
    List ((String × String) × ℚ) :=
  if (m.map Prod.fst).contains k then m.map (fun kv => if kv.1 == k then (k, v) else kv)
  else m ++ [(k, v)]

/-- Python `memTime[key]` as a fallible lookup. -/
def dictFind (m : List ((String × String) × ℚ)) (k : String × String) : Option ℚ :=
  (m.find? (fun kv => kv.1 == k)).map (fun kv => kv.2)

/-- One loop iteration of the validator: remove the `[behavior, modifier]`
pair when it is already open (and forget its time), otherwise append it and
record the opening time. -/
def processOcc (s : MatchState) (bm : String × String) (t : ℚ) : MatchState :=
  if s.lst.contains bm then ⟨s.lst.erase bm, dictDel s.memTime bm⟩
  else ⟨s.lst ++ [bm], dictSet s.memTime bm t⟩

/-- The validator's whole pass over one (subject, behavior) stream. -/
def streamFold (l : List Event) : MatchState :=
  l.foldl (fun s e => processOcc s (e.code, e.modifier) e.time) ⟨[], []⟩

/-- Number of occurrences of the `(code, modifier)` pair `bm` in a stream. -/
def keyCount (bm : String × String) (l : List Event) : Nat :=
  (l.filter (fun e => (e.code, e.modifier) == bm)).length

/-- Time of the last occurrence of the `(code, modifier)` pair `bm`. -/
def lastKeyTime (bm : String × String) (l : List Event) : Option ℚ :=
  ((l.filter (fun e => (e.code, e.modifier) == bm)).map (fun e => e.time)).getLast?

lemma dictFind_eq_none_iff (m : List ((String × String) × ℚ)) (bm : String × String) :
    dictFind m bm = none ↔ bm ∉ m.map Prod.fst := by
  induction m with
  | nil => simp [dictFind]
  | cons kv rest ih =>
    by_cases hb : kv.1 = bm
    · have h2 : (kv.1 == bm) = true := by simpa using hb
      simp [dictFind, List.find?_cons, h2, hb]
    · have h2 : (kv.1 == bm) = false := by simpa using hb
      simp only [dictFind, List.find?_cons, h2] at ih ⊢
      simp only [List.map_cons, List.mem_cons, not_or, ih]
      constructor
      · intro h
        exact ⟨fun hx => hb hx.symm, h⟩
      · intro h
        exact h.2

lemma dictFind_dictDel_self (m : List ((String × String) × ℚ)) (k : String × String) :
    dictFind (dictDel m k) k = none := by
  simp only [dictFind, dictDel, Option.map_eq_none', List.find?_eq_none, List.mem_filter]
  intro kv hkv
  simpa using hkv.2

lemma dictFind_dictDel_ne (m : List ((String × String) × ℚ)) {bm k : String × String}
    (h : bm ≠ k) : dictFind (dictDel m k) bm = dictFind m bm := by
  induction m with
  | nil => rfl
  | cons kv rest ih =>
    by_cases hk : kv.1 = k
    · have h1 : (kv.1 == k) = true := by simpa using hk
      have h2 : (kv.1 == bm) = false := by
        simp only [beq_eq_false_iff_ne]
        rw [hk]
        exact fun hkb => h hkb.symm
      simp only [dictDel, List.filter_cons, h1, Bool.not_true, if_neg] at ih ⊢
      simpa [dictFind, h2, dictDel] using ih
    · have h1 : (kv.1 == k) = false := by simpa using hk
      by_cases hb : kv.1 = bm
      · have h2 : (kv.1 == bm) = true := by simpa using hb
        simp [dictFind, dictDel, List.filter_cons, h1, List.find?_cons, h2]
      · have h2 : (kv.1 == bm) = false := by simpa using hb
        simpa [dictFind, dictDel, List.filter_cons, h1, List.find?_cons, h2] using ih

lemma dictFind_append_one (m : List ((String × String) × ℚ)) (k : String × String) (v : ℚ)
    (bm : String × String) :
    dictFind (m ++ [(k, v)]) bm =
      (dictFind m bm).orElse (fun _ => if bm = k then some v else none) := by
  induction m with
  | nil =>
    by_cases hb : bm = k
    · simp [dictFind, hb]
    · have : (k == bm) = false := by
        simp only [beq_eq_false_iff_ne]
        exact fun hk => hb hk.symm
      simp [dictFind, this, hb]
  | cons kv rest ih =>
    by_cases hb : kv.1 = bm
    · have h2 : (kv.1 == bm) = true := by simpa using hb
      simp [dictFind, List.find?_cons, h2]
    · have h2 : (kv.1 == bm) = false := by simpa using hb
      simpa [dictFind, List.find?_cons, h2] using ih

lemma keyCount_append_one (bm : String × String) (l : List Event) (e : Event) :
    keyCount bm (l ++ [e]) =
      keyCount bm l + (if (e.code, e.modifier) = bm then 1 else 0) := by
  by_cases h : (e.code, e.modifier) = bm
  · have h2 : ((e.code, e.modifier) == bm) = true := by simpa using h
    simp [keyCount, List.filter_append, h2, h]
  · have h2 : ((e.code, e.modifier) == bm) = false := by simpa using h
    simp [keyCount, List.filter_append, h2, h]

lemma lastKeyTime_append_one (bm : String × String) (l : List Event) (e : Event) :
    lastKeyTime bm (l ++ [e]) =
      if (e.code, e.modifier) = bm then some e.time else lastKeyTime bm l := by
  by_cases h : (e.code, e.modifier) = bm
  · have h2 : ((e.code, e.modifier) == bm) = true := by simpa using h
    simp [lastKeyTime, List.filter_append, h2, h]
  · have h2 : ((e.code, e.modifier) == bm) = false := by simpa using h
    simp [lastKeyTime, List.filter_append, h2, h]

lemma mem_dictDel_keys (m : List ((String × String) × ℚ)) (k x : String × String) :
    x ∈ (dictDel m k).map Prod.fst ↔ (x ≠ k ∧ x ∈ m.map Prod.fst) := by
  simp only [dictDel, List.mem_map, List.mem_filter]
  constructor
  · rintro ⟨kv, ⟨hkv, hne⟩, rfl⟩
    refine ⟨?_, ⟨kv, hkv, rfl⟩⟩
    simpa using hne
  · rintro ⟨hne, kv, hkv, rfl⟩
    exact ⟨kv, ⟨hkv, by simpa using hne⟩, rfl⟩

lemma streamFold_append_one (l : List Event) (e : Event) :
    streamFold (l ++ [e]) = processOcc (streamFold l) (e.code, e.modifier) e.time := by
  simp [streamFold, List.foldl_append]

lemma streamFold_spec (l : List Event) :
    (∀ x : String × String,
        x ∈ (streamFold l).memTime.map Prod.fst ↔ x ∈ (streamFold l).lst) ∧
    (streamFold l).lst.Nodup ∧
    ∀ bm : String × String,
      (bm ∈ (streamFold l).lst ↔ Odd (keyCount bm l)) ∧
      dictFind (streamFold l).memTime bm =
        (if bm ∈ (streamFold l).lst then lastKeyTime bm l else none) := by
  induction l using List.reverseRecOn with
  | nil =>
    refine ⟨fun x => by simp [streamFold], List.nodup_nil, fun bm => ⟨?_, ?_⟩⟩
    · simp [streamFold, keyCount]
    · simp [streamFold, dictFind]
  | append_singleton l e ih =>
    obtain ⟨hsync, hnd, hmain⟩ := ih
    rw [streamFold_append_one]
    by_cases hmem : (e.code, e.modifier) ∈ (streamFold l).lst
    · -- already open: the pair is removed and its time forgotten
      have hc : (streamFold l).lst.contains (e.code, e.modifier) = true := by
        simpa using hmem
      have hpo : processOcc (streamFold l) (e.code, e.modifier) e.time =
          ⟨(streamFold l).lst.erase (e.code, e.modifier),
           dictDel (streamFold l).memTime (e.code, e.modifier)⟩ := by
        unfold processOcc
        rw [hc]
        simp
      rw [hpo]
      refine ⟨?_, ?_, ?_⟩
      · intro x
        rw [mem_dictDel_keys, hnd.mem_erase_iff, hsync x]
      · exact hnd.erase _
      · intro bm
        by_cases hbk : bm = (e.code, e.modifier)
        · subst hbk
          have hodd : Odd (keyCount (e.code, e.modifier) l) :=
            (hmain (e.code, e.modifier)).1.mp hmem
          constructor
          · rw [hnd.mem_erase_iff, keyCount_append_one]
            simp [Nat.odd_add_one, hodd]
          · rw [dictFind_dictDel_self]
            rw [if_neg (by rw [hnd.mem_erase_iff]; exact fun hcon => hcon.1 rfl)]
        · have hkb : (e.code, e.modifier) ≠ bm := fun hcon => hbk hcon.symm
          constructor
          · rw [hnd.mem_erase_iff, keyCount_append_one, if_neg hkb]
            simp [(hmain bm).1, hbk]
          · rw [dictFind_dictDel_ne _ hbk, (hmain bm).2, lastKeyTime_append_one,
              if_neg hkb]
            by_cases hbl : bm ∈ (streamFold l).lst
            · rw [if_pos hbl, if_pos (by rw [hnd.mem_erase_iff]; exact ⟨hbk, hbl⟩)]
            · rw [if_neg hbl, if_neg (by rw [hnd.mem_erase_iff]; exact fun h => hbl h.2)]
    · -- not yet open: the pair is appended and its time recorded
      have hc : (streamFold l).lst.contains (e.code, e.modifier) = false := by
        simpa using hmem
      have hkeys : (e.code, e.modifier) ∉ (streamFold l).memTime.map Prod.fst := by
        rw [hsync]
        exact hmem
      have hck : ((streamFold l).memTime.map Prod.fst).contains (e.code, e.modifier) = false := by
        simpa using hkeys
      have hpo : processOcc (streamFold l) (e.code, e.modifier) e.time =
          ⟨(streamFold l).lst ++ [(e.code, e.modifier)],
           (streamFold l).memTime ++ [((e.code, e.modifier), e.time)]⟩ := by
        unfold processOcc dictSet
        rw [hc, hck]
        simp
      rw [hpo]
      refine ⟨?_, ?_, ?_⟩
      · intro x
        simp only [List.map_append, List.mem_append, List.map_cons, List.map_nil]
        rw [hsync x]
      · rw [List.nodup_append]
        exact ⟨hnd, List.nodup_singleton _, by
          intro a ha hb
          rw [List.mem_singleton] at hb
          subst hb
          exact hmem ha⟩
      · intro bm
        by_cases hbk : bm = (e.code, e.modifier)
        · subst hbk
          have heven : ¬Odd (keyCount (e.code, e.modifier) l) :=
            (hmain (e.code, e.modifier)).1.not.mp hmem
          constructor
          · rw [keyCount_append_one]
            simp [Nat.odd_add_one, heven]
          · have hnone : dictFind (streamFold l).memTime (e.code, e.modifier) = none := by
              rw [dictFind_eq_none_iff]
              exact hkeys
            rw [dictFind_append_one, hnone, lastKeyTime_append_one]
            simp
        · have hkb : (e.code, e.modifier) ≠ bm := fun hcon => hbk hcon.symm
          have hmm : bm ∈ (streamFold l).lst ++ [(e.code, e.modifier)] ↔
              bm ∈ (streamFold l).lst := by
            simp [hbk]
          constructor
          · rw [keyCount_append_one, if_neg hkb]
            simpa using hmm.trans (hmain bm).1
          · rw [dictFind_append_one, (hmain bm).2, lastKeyTime_append_one, if_neg hkb]
            simp only [hmm]
            by_cases hbl : bm ∈ (streamFold l).lst
            · rw [if_pos hbl]
              rcases hlt : lastKeyTime bm l with _ | t
              · simp [hlt, hbk]
              · simp [hlt]
            · rw [if_neg hbl]
              simp [hbk]

/-- Number of events carrying the given subject, behavior code and modifier
(one pairing stream of the observation). -/
def countKey (events : List Event) (subject code modifier : String) : Nat :=
  (events.filter
    (fun e => e.subject == subject && e.code == code && e.modifier == modifier)).length

/-- Time of the last event carrying the given subject, behavior code and
modifier. -/
def lastTimeOfKey (events : List Event) (subject code modifier : String) : Option ℚ :=
  ((events.filter
      (fun e => e.subject == subject && e.code == code && e.modifier == modifier)).map
    (fun e => e.time)).getLast?

/-- The validator's guard for one behavior code: defined in the ethogram and
State-typed (`behavior in ethogram_behaviors` and
`cfg.STATE in event_type(behavior, ethogram).upper()`). -/
def stateGuard (ethogram : List EthogramEntry) (code : String) : Bool :=
  (ethogram.map (fun b => b.code)).contains code &&
    (match event_type ethogram code with
     | some t => strContains (strUpper t) "STATE"
     | none => false)

/-- Report entries produced for one (subject, behavior) pair of the
validator's nested loops: skip codes missing from the ethogram or not
State-typed, otherwise run the open/close list matching over the stream and
emit one entry per pair left open. -/
def unpairedForKey (ethogram : List EthogramEntry) (events : List Event)
    (subject behavior : String) : List ReportEntry :=
  if (ethogram.map (fun b => b.code)).contains behavior then
    match event_type ethogram behavior with
    | some t =>
      if strContains (strUpper t) "STATE" then
        (streamFold (events.filter (fun e => e.code == behavior && e.subject == subject))).lst.map
          (fun bm => ReportEntry.mk behavior bm.2 subject
            (dictFind (streamFold
              (events.filter (fun e => e.code == behavior && e.subject == subject))).memTime bm))
      else []
    | none => []
  else []

/-- All report lines of the validator: subjects in `sorted(set(...))` order,
then the subject's behaviors in `sorted(set(...))` order. -/
def validatorReport (ethogram : List EthogramEntry) (events : List Event) :
    List ReportEntry :=
  (sortedSet (events.map (fun e => e.subject))).flatMap (fun subject =>
    (sortedSet ((events.filter (fun e => e.subject == subject)).map (fun e => e.code))).flatMap
      (fun behavior => unpairedForKey ethogram events subject behavior))

/-- `project_functions.check_state_events_obs` (lines 248-323): early return
when no behavior is a State event, otherwise `ok = False` with the report
exactly when some unmatched state-open remains, else `ok = True` with
`"No problem detected"`.  `obsId` and `time_format` only affect rendering and
are omitted. -/
def check_state_events_obs (ethogram : List EthogramEntry) (events : List Event) :
    Bool × CheckMsg :=
  if ethogram.all (fun b => b.type == "Point event") then (true, CheckMsg.noStateEvent)
  else if validatorReport ethogram events = [] then (true, CheckMsg.noProblem)
  else (false, CheckMsg.unpaired (validatorReport ethogram events))

lemma mem_insertStr (x a : String) (l : List String) :
    a ∈ insertStr x l ↔ a = x ∨ a ∈ l := by
  induction l with
  | nil => simp [insertStr]
  | cons y ys ih =>
    cases h : pyStrLt y x
    · simp only [insertStr, h, Bool.false_eq_true, if_false, List.mem_cons]
    · simp only [insertStr, h, if_true, List.mem_cons, ih]
      tauto

lemma mem_sortStrs (a : String) (l : List String) : a ∈ sortStrs l ↔ a ∈ l := by
  induction l with
  | nil => simp [sortStrs]
  | cons x xs ih => simp [sortStrs, mem_insertStr, ih]

lemma mem_distinctAux {α : Type} [BEq α] [LawfulBEq α] (a : α) :
    ∀ (l seen : List α), a ∈ distinctAux seen l ↔ (a ∈ l ∧ a ∉ seen) := by
  intro l
  induction l with
  | nil => intro seen; simp [distinctAux]
  | cons x xs ih =>
    intro seen
    cases hx : seen.contains x
    · have hxm : x ∉ seen := by simpa using hx
      simp only [distinctAux, hx, Bool.false_eq_true, if_false, List.mem_cons, ih]
      constructor
      · rintro (rfl | ⟨hax, hns⟩)
        · exact ⟨Or.inl rfl, hxm⟩
        · exact ⟨Or.inr hax, fun hs => hns (Or.inr hs)⟩
      · rintro ⟨rfl | hax, hns⟩
        · exact Or.inl rfl
        · by_cases hax2 : a = x
          · exact Or.inl hax2
          · exact Or.inr ⟨hax, fun hs => hs.elim hax2 hns⟩
    · have hxm : x ∈ seen := by simpa using hx
      simp only [distinctAux, hx, if_true, ih, List.mem_cons]
      constructor
      · rintro ⟨hax, hns⟩
        exact ⟨Or.inr hax, hns⟩
      · rintro ⟨rfl | hax, hns⟩
        · exact absurd hxm hns
        · exact ⟨hax, hns⟩

lemma mem_sortedSet (a : String) (l : List String) : a ∈ sortedSet l ↔ a ∈ l := by
  rw [sortedSet, mem_sortStrs, distinctList, mem_distinctAux]
  simp

lemma event_type_isSome_iff (ethogram : List EthogramEntry) (code : String) :
    (event_type ethogram code).isSome = true ↔ code ∈ ethogram.map (fun b => b.code) := by
  unfold event_type
  rcases hf : ethogram.find? (fun b => b.code == code) with _ | b
  · simp only [hf, Option.map_none', Option.isSome_none, Bool.false_eq_true, false_iff]
    intro h
    obtain ⟨b, hb, hbc⟩ := List.mem_map.mp h
    have hx := List.find?_eq_none.mp hf b hb
    simp [hbc] at hx
  · simp only [hf, Option.map_some', Option.isSome_some, true_iff]
    exact List.mem_map.mpr ⟨b, List.mem_of_find?_eq_some hf, by simpa using List.find?_some hf⟩

lemma unpairedForKey_eq (ethogram : List EthogramEntry) (events : List Event)
    (subject behavior : String) :
    unpairedForKey ethogram events subject behavior =
      if stateGuard ethogram behavior then
        (streamFold (events.filter (fun e => e.code == behavior && e.subject == subject))).lst.map
          (fun bm => ReportEntry.mk behavior bm.2 subject
            (dictFind (streamFold
              (events.filter (fun e => e.code == behavior && e.subject == subject))).memTime bm))
      else [] := by
  unfold unpairedForKey stateGuard
  cases hc : (ethogram.map (fun b => b.code)).contains behavior
  · simp [hc]
  · rcases hf : event_type ethogram behavior with _ | t
    · simp [hf, hc]
    · simp [hf, hc]

lemma filter_key_eq (events : List Event) (subject behavior m : String) :
    (events.filter (fun e => e.code == behavior && e.subject == subject)).filter
        (fun e => (e.code, e.modifier) == (behavior, m)) =
      events.filter
        (fun e => e.subject == subject && e.code == behavior && e.modifier == m) := by
  induction events with
  | nil => rfl
  | cons e rest ih =>
    by_cases h1 : e.code = behavior <;> by_cases h2 : e.subject = subject <;>
      by_cases h3 : e.modifier = m <;>
      simp [List.filter_cons, h1, h2, h3, Prod.ext_iff, ih]

lemma keyCount_stream (events : List Event) (subject behavior m : String) :
    keyCount (behavior, m)
        (events.filter (fun e => e.code == behavior && e.subject == subject)) =
      countKey events subject behavior m := by
  rw [keyCount, countKey, filter_key_eq]

lemma lastKeyTime_stream (events : List Event) (subject behavior m : String) :
    lastKeyTime (behavior, m)
        (events.filter (fun e => e.code == behavior && e.subject == subject)) =
      lastTimeOfKey events subject behavior m := by
  rw [lastKeyTime, lastTimeOfKey, filter_key_eq]

lemma streamFold_lst_fst (events : List Event) (subject behavior : String)
    (bm : String × String)
    (h : bm ∈ (streamFold
        (events.filter (fun e => e.code == behavior && e.subject == subject))).lst) :
    bm.1 = behavior := by
  have hodd := ((streamFold_spec
    (events.filter (fun e => e.code == behavior && e.subject == subject))).2.2 bm).1.mp h
  have hpos : 0 < keyCount bm
      (events.filter (fun e => e.code == behavior && e.subject == subject)) := hodd.pos
  rw [keyCount, List.length_pos] at hpos
  obtain ⟨e, he⟩ := List.exists_mem_of_ne_nil _ hpos
  have h2 := List.mem_filter.mp he
  have h3 := List.mem_filter.mp h2.1
  have hkey : (e.code, e.modifier) = bm := by simpa using h2.2
  have hcode : e.code = behavior := by
    have h4 := h3.2
    simp only [Bool.and_eq_true, beq_iff_eq] at h4
    exact h4.1
  rw [← hkey]
  exact hcode

lemma mem_validatorReport_of_odd (ethogram : List EthogramEntry) (events : List Event)
    (subject code m : String) (hg : stateGuard ethogram code = true)
    (hodd : Odd (countKey events subject code m)) :
    ReportEntry.mk code m subject (lastTimeOfKey events subject code m) ∈
      validatorReport ethogram events := by
  have hpos : 0 < countKey events subject code m := hodd.pos
  rw [countKey, List.length_pos] at hpos
  obtain ⟨e, he⟩ := List.exists_mem_of_ne_nil _ hpos
  have h2 := List.mem_filter.mp he
  have hprops : e.subject = subject ∧ e.code = code ∧ e.modifier = m := by
    have h4 := h2.2
    simp only [Bool.and_eq_true, beq_iff_eq] at h4
    exact ⟨h4.1.1, h4.1.2, h4.2⟩
  have hsub : subject ∈ sortedSet (events.map (fun x => x.subject)) := by
    rw [mem_sortedSet]
    exact List.mem_map.mpr ⟨e, h2.1, hprops.1⟩
  have hbeh : code ∈
      sortedSet ((events.filter (fun x => x.subject == subject)).map (fun x => x.code)) := by
    rw [mem_sortedSet]
    exact List.mem_map.mpr
      ⟨e, List.mem_filter.mpr ⟨h2.1, by simp [hprops.1]⟩, hprops.2.1⟩
  have hbm : (code, m) ∈
      (streamFold (events.filter (fun x => x.code == code && x.subject == subject))).lst := by
    apply ((streamFold_spec _).2.2 (code, m)).1.mpr
    rw [keyCount_stream]
    exact hodd
  have htime : dictFind
      (streamFold (events.filter (fun x => x.code == code && x.subject == subject))).memTime
        (code, m) = lastTimeOfKey events subject code m := by
    rw [((streamFold_spec _).2.2 (code, m)).2, if_pos hbm, lastKeyTime_stream]
  rw [validatorReport]
  apply List.mem_flatMap.mpr
  refine ⟨subject, hsub, ?_⟩
  apply List.mem_flatMap.mpr
  refine ⟨code, hbeh, ?_⟩
  rw [unpairedForKey_eq, if_pos hg]
  refine List.mem_map.mpr ⟨(code, m), hbm, ?_⟩
  rw [htime]

lemma exists_odd_of_validatorReport_ne_nil (ethogram : List EthogramEntry)
    (events : List Event) (h : validatorReport ethogram events ≠ []) :
    ∃ subject code m, stateGuard ethogram code = true ∧
      Odd (countKey events subject code m) := by
  obtain ⟨entry, hentry⟩ := List.exists_mem_of_ne_nil _ h
  rw [validatorReport] at hentry
  obtain ⟨subject, hsub, hentry⟩ := List.mem_flatMap.mp hentry
  obtain ⟨behavior, hbeh, hentry⟩ := List.mem_flatMap.mp hentry
  rw [unpairedForKey_eq] at hentry
  by_cases hg : stateGuard ethogram behavior = true
  · rw [if_pos hg] at hentry
    obtain ⟨bm, hbm, hmk⟩ := List.mem_map.mp hentry
    obtain ⟨b1, b2⟩ := bm
    have hfst : b1 = behavior := streamFold_lst_fst events subject behavior (b1, b2) hbm
    subst hfst
    have hodd := ((streamFold_spec
      (events.filter (fun e => e.code == b1 && e.subject == subject))).2.2 (b1, b2)).1.mp hbm
    refine ⟨subject, b1, b2, hg, ?_⟩
    rw [← keyCount_stream]
    exact hodd
  · rw [if_neg hg] at hentry
    cases hentry

/-- C3.  With at least one State-typed behavior in the ethogram, the validator
returns `ok = False` exactly when some (subject, behavior, modifier) stream
has an odd occurrence count (an unmatched state-open); each such stream
contributes a report entry `{behavior, modifier, subject, time}` whose time is
the timestamp recorded at the unmatched open (the stream's last occurrence);
otherwise it returns `ok = True` with `"No problem detected"`.  In particular
the single-event stream `[(0, "", "run", "")]` yields `ok = False` with one
unmatched entry at time `0`. -/
theorem check_state_events_obs_characterization
    (ethogram : List EthogramEntry) (events : List Event)
    (hstate : ∃ b ∈ ethogram, isStateType b.type = true) :
    ((check_state_events_obs ethogram events).1 = false ↔
      ∃ subject code modifier, stateGuard ethogram code = true ∧
        Odd (countKey events subject code modifier)) ∧
    ((check_state_events_obs ethogram events).1 = true →
      (check_state_events_obs ethogram events).2 = CheckMsg.noProblem) ∧
    (∀ subject code modifier, stateGuard ethogram code = true →
      Odd (countKey events subject code modifier) →
      ∃ entries, (check_state_events_obs ethogram events).2 = CheckMsg.unpaired entries ∧
        ReportEntry.mk code modifier subject (lastTimeOfKey events subject code modifier) ∈
          entries) ∧
    check_state_events_obs [⟨"run", "State event"⟩] [⟨0, "", "run", "", ""⟩] =
      (false, CheckMsg.unpaired [⟨"run", "", "", some 0⟩]) := by
  have hall : ethogram.all (fun b => b.type == "Point event") = false := by
    obtain ⟨b, hb, hbt⟩ := hstate
    rw [Bool.eq_false_iff]
    intro hcon
    have hb2 := List.all_eq_true.mp hcon b hb
    have hbeq : b.type = "Point event" := by simpa using hb2
    rw [hbeq] at hbt
    exact absurd hbt (by decide)
  have hex : check_state_events_obs [⟨"run", "State event"⟩] [⟨0, "", "run", "", ""⟩] =
      (false, CheckMsg.unpaired [⟨"run", "", "", some 0⟩]) := by
    simp +decide [check_state_events_obs, validatorReport, unpairedForKey, sortedSet,
      sortStrs, insertStr, distinctList, distinctAux, streamFold, processOcc, dictSet,
      dictFind, event_type, strUpper, strContains, subOccurs, pyStrLt, charsLt]
  by_cases hrep : validatorReport ethogram events = []
  · have hres : check_state_events_obs ethogram events = (true, CheckMsg.noProblem) := by
      rw [check_state_events_obs, hall]
      simp [hrep]
    refine ⟨?_, ?_, ?_, hex⟩
    · rw [hres]
      constructor
      · intro hcon
        exact absurd hcon (by simp)
      · rintro ⟨s, c, m, hg, hodd⟩
        exact absurd hrep
          (List.ne_nil_of_mem (mem_validatorReport_of_odd ethogram events s c m hg hodd))
    · intro _
      rw [hres]
    · intro s c m hg hodd
      exact absurd hrep
        (List.ne_nil_of_mem (mem_validatorReport_of_odd ethogram events s c m hg hodd))
  · have hres : check_state_events_obs ethogram events =
        (false, CheckMsg.unpaired (validatorReport ethogram events)) := by
      rw [check_state_events_obs, hall]
      simp [hrep]
    refine ⟨?_, ?_, ?_, hex⟩
    · rw [hres]
      constructor
      · intro _
        exact exists_odd_of_validatorReport_ne_nil ethogram events hrep
      · intro _
        rfl
    · intro hcon
      rw [hres] at hcon
      exact absurd hcon (by simp)
    · intro s c m hg hodd
      exact ⟨validatorReport ethogram events, by rw [hres],
        mem_validatorReport_of_odd ethogram events s c m hg hodd⟩

/-- Witness for C3 at a concrete input. -/
theorem check_state_events_obs_characterization_witness :
    (check_state_events_obs [⟨"run", "State event"⟩] [⟨0, "", "run", "", ""⟩]).1 = false := by
  have h := check_state_events_obs_characterization [⟨"run", "State event"⟩]
    [⟨0, "", "run", "", ""⟩] ⟨⟨"run", "State event"⟩, by simp, by decide⟩
  rw [h.2.2.2]

/-! ### Coverage / exhaustivity (`check_observation_exhaustivity`,
project_functions.py 43-121) -/

/-- Modelled from the spec: one atomic member of an interval union of the
vendored `boris/portion` library (not among the provided sources).  Per §4.3,
State behaviors contribute closed-open `[open, close)` pieces
(`I.closedopen`), non-State behaviors contribute single-instant members
(`I.singleton`). -/
inductive IntervalPiece where
  | closedopen (lo hi : ℚ) : IntervalPiece
  | singleton (t : ℚ) : IntervalPiece
deriving DecidableEq, Repr

/-- The non-empty closed-open span of one piece: `I.closedopen(a, b)` is
empty when `b ≤ a`, and singletons have zero length. -/
def spanOf : IntervalPiece → Option (ℚ × ℚ)
  | .closedopen a b => if a < b then some (a, b) else none
  | .singleton _ => none

/-- Non-empty closed-open spans among a list of pieces. -/
def pieceSpans (l : List IntervalPiece) : List (ℚ × ℚ) :=
  l.filterMap spanOf

/-- Insert a span into a list sorted by lower bound. -/
def insertSpan (x : ℚ × ℚ) : List (ℚ × ℚ) → List (ℚ × ℚ)
  | [] => [x]
  | y :: ys => if x.1 ≤ y.1 then x :: y :: ys else y :: insertSpan x ys

/-- Insertion sort of spans by lower bound. -/
def sortSpans : List (ℚ × ℚ) → List (ℚ × ℚ)
  | [] => []
  | x :: xs => insertSpan x (sortSpans xs)

/-- Left-to-right sweep over spans sorted by lower bound, merging overlapping
spans and summing the lengths of the disjoint components. -/
def sweepLen : ℚ → ℚ → List (ℚ × ℚ) → ℚ
  | a, b, [] => b - a
  | a, b, (c, d) :: rest =>
    if c ≤ b then sweepLen a (max b d) rest else (b - a) + sweepLen c d rest

/-- Modelled from the spec: `interval_len` of §4.3 — the total length of the
union ("sum of upper − lower over the union's disjoint components; treat
empty union as 0"). -/
def interval_len (l : List IntervalPiece) : ℚ :=
  match sortSpans (pieceSpans l) with
  | [] => 0
  | (a, b) :: rest => sweepLen a b rest

/-- Per-(subject, behavior) accumulator of the exhaustivity scan: the
accumulated `events_interval` pieces and the pending `mem_events_interval`
time list. -/
structure BehavAcc where
  interval : List IntervalPiece
  mem : List ℚ
deriving DecidableEq, Repr

/-- One event's effect on its (subject, behavior) slot: a State code buffers
its time and flushes a closed-open piece once two times are buffered; any
other code adds a singleton. -/
def updateBehav (isState : Bool) (t : ℚ) (acc : BehavAcc) : BehavAcc :=
  if isState then
    match acc.mem ++ [t] with
    | [a, b] => ⟨acc.interval ++ [IntervalPiece.closedopen a b], []⟩
    | l => ⟨acc.interval, l⟩
  else ⟨acc.interval ++ [IntervalPiece.singleton t], acc.mem⟩

/-- First-match lookup in an insertion-ordered association list (fallible
Python `d[k]`). -/
def alGet {β : Type} (m : List (String × β)) (k : String) : Option β :=
  (m.find? (fun kv => kv.1 == k)).map (fun kv => kv.2)

/-- Python `d[k] = v`: replace in place when the key exists, append
otherwise. -/
def alSet {β : Type} (m : List (String × β)) (k : String) (v : β) :
    List (String × β) :=
  if (m.map Prod.fst).contains k then m.map (fun kv => if kv.1 == k then (k, v) else kv)
  else m ++ [(k, v)]

/-- One event of the exhaustivity scan: create the subject and behavior slots
when missing, then update the behavior slot. -/
def processExhaustEvent (sel : List String)
    (acc : List (String × List (String × BehavAcc))) (e : Event) :
    List (String × List (String × BehavAcc)) :=
  let subjMap := (alGet acc e.subject).getD []
  let behavAcc := (alGet subjMap e.code).getD ⟨[], []⟩
  alSet acc e.subject (alSet subjMap e.code (updateBehav (sel.contains e.code) e.time behavAcc))

/-- The nested `events_interval` dictionary after the whole scan. -/
def buildIntervals (sel : List String) (events : List Event) :
    List (String × List (String × BehavAcc)) :=
  events.foldl (processExhaustEvent sel) []

/-- Python `<` on event records (list comparison: time first, then subject,
code, modifier, comment). -/
def eventLt (a b : Event) : Bool :=
  if a.time < b.time then true
  else if b.time < a.time then false
  else if pyStrLt a.subject b.subject then true
  else if pyStrLt b.subject a.subject then false
  else if pyStrLt a.code b.code then true
  else if pyStrLt b.code a.code then false
  else if pyStrLt a.modifier b.modifier then true
  else if pyStrLt b.modifier a.modifier then false
  else pyStrLt a.comment b.comment

/-- Python `max(events)` over a nonempty list. -/
def pyMaxEvent (e : Event) (l : List Event) : Event :=
  l.foldl (fun acc x => if eventLt acc x then x else acc) e

/-- Python `min(events)` over a nonempty list. -/
def pyMinEvent (e : Event) (l : List Event) : Event :=
  l.foldl (fun acc x => if eventLt x acc then x else acc) e

/-- Round half to even (the `ROUND_HALF_EVEN` default of Python `Decimal`
contexts, used by `round`). -/
def roundHalfEven (x : ℚ) : ℤ :=
  if x - ⌊x⌋ < 1 / 2 then ⌊x⌋
  else if 1 / 2 < x - ⌊x⌋ then ⌊x⌋ + 1
  else if Even ⌊x⌋ then ⌊x⌋ else ⌊x⌋ + 1

/-- Python `round(x, 1)`. -/
def pyRound1 (x : ℚ) : ℚ := (roundHalfEven (x * 10) : ℚ) / 10

/-- The effective State-code set of `check_observation_exhaustivity`: derived
from the ethogram when one is supplied, otherwise the explicit
`state_events_list` argument. -/
def selStateList (ethogram : List EthogramEntry) (state_events_list : List String) :
    List String :=
  if ethogram.isEmpty then state_events_list else state_behavior_codes ethogram

/-- `project_functions.check_observation_exhaustivity` (lines 43-121):
per-subject interval unions from State pairs and non-State singletons,
theoretical duration from the lexicographic `max(events)`/`min(events)`,
per-subject clamping, and the final rounded percentage (0 when there are no
events or no theoretical duration). -/
def check_observation_exhaustivity (events : List Event)
    (ethogram : List EthogramEntry) (state_events_list : List String) : ℚ :=
  let sel := selStateList ethogram state_events_list
  let events_interval := buildIntervals sel events
  let obs_theo_dur : ℚ :=
    match events with
    | [] => 0
    | e :: rest => (pyMaxEvent e rest).time - (pyMinEvent e rest).time
  let total_duration : ℚ :=
    (events_interval.map (fun kv =>
      let obs_real_dur := interval_len (kv.2.flatMap (fun bv => bv.2.interval))
      if obs_real_dur ≥ obs_theo_dur then obs_theo_dur else obs_real_dur)).sum
  if events_interval.length ≠ 0 ∧ obs_theo_dur ≠ 0 then
    pyRound1 (total_duration / (events_interval.length * obs_theo_dur) * 100)
  else pyRound1 0

/-- Largest member of a nonempty list of times (0 for the empty list). -/
def timesMax : List ℚ → ℚ
  | [] => 0
  | t :: ts => ts.foldl max t

/-- Smallest member of a nonempty list of times (0 for the empty list). -/
def timesMin : List ℚ → ℚ
  | [] => 0
  | t :: ts => ts.foldl min t

/-- Theoretical observation duration per §4.3: `(max event time) − (min event
time)` across all events of the observation. -/
def theoDur (events : List Event) : ℚ :=
  timesMax (events.map (fun e => e.time)) - timesMin (events.map (fun e => e.time))

/-- Distinct subjects of the event list, in first-occurrence order. -/
def distinctSubjects (events : List Event) : List String :=
  distinctList (events.map (fun e => e.subject))

/-- Observed (covered) duration of one subject: total length of the union of
all of its behaviors' pieces. -/
def observedDur (sel : List String) (events : List Event) (subject : String) : ℚ :=
  interval_len (((alGet (buildIntervals sel events) subject).getD []).flatMap
    (fun bv => bv.2.interval))

lemma eventLt_time_left {a x : Event} (h : eventLt a x = true) : a.time ≤ x.time := by
  unfold eventLt at h
  by_cases h1 : a.time < x.time
  · exact h1.le
  · rw [if_neg h1] at h
    by_cases h2 : x.time < a.time
    · rw [if_pos h2] at h
      cases h
    · exact not_lt.mp h2

lemma eventLt_time_right {a x : Event} (h : eventLt a x = false) : x.time ≤ a.time := by
  unfold eventLt at h
  by_cases h1 : a.time < x.time
  · rw [if_pos h1] at h
    cases h
  · exact not_lt.mp h1

lemma pick_max_time (a x : Event) :
    (if eventLt a x then x else a).time = max a.time x.time := by
  cases h : eventLt a x
  · simp only [h, Bool.false_eq_true, if_false]
    exact (max_eq_left (eventLt_time_right h)).symm
  · simp only [h, if_true]
    exact (max_eq_right (eventLt_time_left h)).symm

lemma pick_min_time (a x : Event) :
    (if eventLt x a then x else a).time = min a.time x.time := by
  cases h : eventLt x a
  · simp only [h, Bool.false_eq_true, if_false]
    exact (min_eq_left (eventLt_time_right h)).symm
  · simp only [h, if_true]
    exact (min_eq_right (eventLt_time_left h)).symm

lemma pyMaxEvent_time (e : Event) (l : List Event) :
    (pyMaxEvent e l).time = timesMax ((e :: l).map (fun x => x.time)) := by
  unfold pyMaxEvent timesMax
  simp only [List.map_cons]
  induction l generalizing e with
  | nil => rfl
  | cons x xs ih =>
    simp only [List.foldl_cons, List.map_cons]
    rw [ih, pick_max_time]

lemma pyMinEvent_time (e : Event) (l : List Event) :
    (pyMinEvent e l).time = timesMin ((e :: l).map (fun x => x.time)) := by
  unfold pyMinEvent timesMin
  simp only [List.map_cons]
  induction l generalizing e with
  | nil => rfl
  | cons x xs ih =>
    simp only [List.foldl_cons, List.map_cons]
    rw [ih, pick_min_time]

lemma foldl_min_le (l : List ℚ) : ∀ (t : ℚ), l.foldl min t ≤ t := by
  induction l with
  | nil => intro t; exact le_refl t
  | cons x xs ih =>
    intro t
    exact le_trans (ih (min t x)) (min_le_left t x)

lemma le_foldl_max (l : List ℚ) : ∀ (t : ℚ), t ≤ l.foldl max t := by
  induction l with
  | nil => intro t; exact le_refl t
  | cons x xs ih =>
    intro t
    exact le_trans (le_max_left t x) (ih (max t x))

lemma timesMin_le_timesMax (l : List ℚ) : timesMin l ≤ timesMax l := by
  cases l with
  | nil => exact le_refl 0
  | cons t ts => exact le_trans (foldl_min_le ts t) (le_foldl_max ts t)

lemma pieceSpans_mem_lt (l : List IntervalPiece) :
    ∀ p ∈ pieceSpans l, p.1 < p.2 := by
  intro p hp
  rw [pieceSpans] at hp
  obtain ⟨piece, _, heq⟩ := List.mem_filterMap.mp hp
  cases piece with
  | closedopen a b =>
    simp only [spanOf] at heq
    by_cases hab : a < b
    · rw [if_pos hab] at heq
      cases heq
      exact hab
    · rw [if_neg hab] at heq
      cases heq
  | singleton t =>
    simp [spanOf] at heq

lemma mem_insertSpan (x p : ℚ × ℚ) (l : List (ℚ × ℚ)) :
    p ∈ insertSpan x l ↔ p = x ∨ p ∈ l := by
  induction l with
  | nil => simp [insertSpan]
  | cons y ys ih =>
    by_cases h : x.1 ≤ y.1
    · simp only [insertSpan, if_pos h, List.mem_cons]
    · simp only [insertSpan, if_neg h, List.mem_cons, ih]
      tauto

lemma mem_sortSpans (p : ℚ × ℚ) (l : List (ℚ × ℚ)) : p ∈ sortSpans l ↔ p ∈ l := by
  induction l with
  | nil => simp [sortSpans]
  | cons x xs ih => simp [sortSpans, mem_insertSpan, ih]

lemma sweepLen_nonneg : ∀ (rest : List (ℚ × ℚ)) (a b : ℚ), a ≤ b →
    (∀ p ∈ rest, p.1 < p.2) → 0 ≤ sweepLen a b rest := by
  intro rest
  induction rest with
  | nil =>
    intro a b hab _
    simpa [sweepLen] using sub_nonneg.mpr hab
  | cons cd rest ih =>
    intro a b hab hall
    obtain ⟨c, d⟩ := cd
    by_cases h : c ≤ b
    · rw [sweepLen, if_pos h]
      exact ih a (max b d) (hab.trans (le_max_left b d))
        (fun p hp => hall p (List.mem_cons_of_mem _ hp))
    · rw [sweepLen, if_neg h]
      have hcd : c < d := hall (c, d) (List.mem_cons_self _ _)
      have h2 := ih c d hcd.le (fun p hp => hall p (List.mem_cons_of_mem _ hp))
      have h3 := sub_nonneg.mpr hab
      linarith

lemma interval_len_nonneg (l : List IntervalPiece) : 0 ≤ interval_len l := by
  rw [interval_len]
  rcases hs : sortSpans (pieceSpans l) with _ | ⟨⟨a, b⟩, rest⟩
  · exact le_refl 0
  · have hab : (a, b) ∈ sortSpans (pieceSpans l) := by
      rw [hs]
      exact List.mem_cons_self _ _
    have hab2 : a < b :=
      pieceSpans_mem_lt l (a, b) ((mem_sortSpans _ _).mp hab)
    refine sweepLen_nonneg rest a b hab2.le (fun p hp => ?_)
    refine pieceSpans_mem_lt l p ((mem_sortSpans _ _).mp ?_)
    rw [hs]
    exact List.mem_cons_of_mem _ hp

lemma interval_len_singletons (l : List IntervalPiece)
    (h : ∀ p ∈ l, ∃ t, p = IntervalPiece.singleton t) : interval_len l = 0 := by
  have hnil : pieceSpans l = [] := by
    rw [pieceSpans, List.filterMap_eq_nil_iff]
    intro p hp
    obtain ⟨t, rfl⟩ := h p hp
    rfl
  rw [interval_len, hnil]
  rfl

lemma interval_len_single (a b : ℚ) (h : a < b) :
    interval_len [IntervalPiece.closedopen a b] = b - a := by
  rw [interval_len]
  simp [pieceSpans, spanOf, h, sortSpans, insertSpan, sweepLen]

lemma roundHalfEven_nonneg (y : ℚ) (h : 0 ≤ y) : 0 ≤ roundHalfEven y := by
  have h0 : (0 : ℤ) ≤ ⌊y⌋ := Int.floor_nonneg.mpr h
  unfold roundHalfEven
  split_ifs <;> omega

lemma roundHalfEven_le_thousand (y : ℚ) (h : y ≤ 1000) : roundHalfEven y ≤ 1000 := by
  have hf : ⌊y⌋ ≤ 1000 := by
    calc ⌊y⌋ ≤ ⌊(1000 : ℚ)⌋ := Int.floor_le_floor h
    _ = 1000 := by norm_num
  by_cases heq : ⌊y⌋ = 1000
  · have hfrac : y - ⌊y⌋ < 1 / 2 := by
      have hle : y - ⌊y⌋ ≤ 0 := by
        rw [heq]
        push_cast
        linarith
      linarith
    unfold roundHalfEven
    rw [if_pos hfrac, heq]
  · unfold roundHalfEven
    split_ifs <;> omega

lemma pyRound1_nonneg (x : ℚ) (h : 0 ≤ x) : 0 ≤ pyRound1 x := by
  have r0 := roundHalfEven_nonneg (x * 10) (by positivity)
  unfold pyRound1
  apply div_nonneg _ (by norm_num)
  exact_mod_cast r0

lemma pyRound1_le_hundred (x : ℚ) (h : x ≤ 100) : pyRound1 x ≤ 100 := by
  have r1 := roundHalfEven_le_thousand (x * 10) (by linarith)
  unfold pyRound1
  rw [div_le_iff₀ (by norm_num : (0 : ℚ) < 10)]
  calc ((roundHalfEven (x * 10) : ℚ)) ≤ 1000 := by exact_mod_cast r1
  _ = 100 * 10 := by norm_num

lemma pyRound1_zero : pyRound1 0 = 0 := by
  norm_num [pyRound1, roundHalfEven]

lemma pyRound1_hundred : pyRound1 100 = 100 := by
  norm_num [pyRound1, roundHalfEven]

lemma alGet_eq_none_iff {β : Type} (m : List (String × β)) (k : String) :
    alGet m k = none ↔ k ∉ m.map Prod.fst := by
  induction m with
  | nil => simp [alGet]
  | cons kv rest ih =>
    by_cases hb : kv.1 = k
    · have h2 : (kv.1 == k) = true := by simpa using hb
      simp [alGet, List.find?_cons, h2, hb]
    · have h2 : (kv.1 == k) = false := by simpa using hb
      simp only [alGet, List.find?_cons, h2] at ih ⊢
      simp only [List.map_cons, List.mem_cons, not_or, ih]
      constructor
      · intro h
        exact ⟨fun hx => hb hx.symm, h⟩
      · intro h
        exact h.2

lemma alGet_append_one {β : Type} (m : List (String × β)) (k : String) (v : β)
    (x : String) :
    alGet (m ++ [(k, v)]) x =
      (alGet m x).orElse (fun _ => if x = k then some v else none) := by
  induction m with
  | nil =>
    by_cases hb : x = k
    · simp [alGet, hb]
    · have h2 : (k == x) = false := by
        simp only [beq_eq_false_iff_ne]
        exact fun hk => hb hk.symm
      simp [alGet, h2, hb]
  | cons kv rest ih =>
    by_cases hb : kv.1 = x
    · have h2 : (kv.1 == x) = true := by simpa using hb
      simp [alGet, List.find?_cons, h2]
    · have h2 : (kv.1 == x) = false := by simpa using hb
      simpa [alGet, List.find?_cons, h2] using ih

lemma alGet_replace_self {β : Type} (m : List (String × β)) (k : String) (v : β)
    (h : k ∈ m.map Prod.fst) :
    alGet (m.map (fun kv => if kv.1 == k then (k, v) else kv)) k = some v := by
  induction m with
  | nil => simp at h
  | cons kv rest ih =>
    by_cases hb : kv.1 = k
    · have h2 : (kv.1 == k) = true := by simpa using hb
      simp only [List.map_cons, h2, if_true]
      simp [alGet, List.find?_cons]
    · have h2 : (kv.1 == k) = false := by simpa using hb
      have hmem : k ∈ rest.map Prod.fst := by
        rw [List.map_cons] at h
        rcases List.mem_cons.mp h with h3 | h3
        · exact absurd h3.symm hb
        · exact h3
      have ihm := ih hmem
      simp only [List.map_cons, h2, Bool.false_eq_true, if_false]
      simpa [alGet, List.find?_cons, h2] using ihm

lemma alGet_replace_ne {β : Type} (m : List (String × β)) (k : String) (v : β)
    (x : String) (hx : x ≠ k) :
    alGet (m.map (fun kv => if kv.1 == k then (k, v) else kv)) x = alGet m x := by
  induction m with
  | nil => rfl
  | cons kv rest ih =>
    by_cases hb : kv.1 = k
    · have h2 : (kv.1 == k) = true := by simpa using hb
      have h3 : (k == x) = false := by
        simp only [beq_eq_false_iff_ne]
        exact fun hk => hx hk.symm
      have h4 : (kv.1 == x) = false := by
        simp only [beq_eq_false_iff_ne]
        rw [hb]
        exact fun hk => hx hk.symm
      simp only [List.map_cons, h2, if_true]
      simpa [alGet, List.find?_cons, h3, h4] using ih
    · have h2 : (kv.1 == k) = false := by simpa using hb
      simp only [List.map_cons, h2, Bool.false_eq_true, if_false]
      by_cases hbx : kv.1 = x
      · have h5 : (kv.1 == x) = true := by simpa using hbx
        simp [alGet, List.find?_cons, h5]
      · have h5 : (kv.1 == x) = false := by simpa using hbx
        simpa [alGet, List.find?_cons, h5] using ih

lemma alGet_alSet_self {β : Type} (m : List (String × β)) (k : String) (v : β) :
    alGet (alSet m k v) k = some v := by
  unfold alSet
  cases hc : (m.map Prod.fst).contains k
  · have hget : alGet m k = none := (alGet_eq_none_iff m k).mpr (by simpa using hc)
    simp only [hc, Bool.false_eq_true, if_false]
    rw [alGet_append_one, hget]
    simp
  · simp only [hc, if_true]
    exact alGet_replace_self m k v (by simpa using hc)

lemma alGet_alSet_ne {β : Type} (m : List (String × β)) (k : String) (v : β)
    (x : String) (hx : x ≠ k) :
    alGet (alSet m k v) x = alGet m x := by
  unfold alSet
  cases hc : (m.map Prod.fst).contains k
  · simp only [hc, Bool.false_eq_true, if_false]
    rw [alGet_append_one]
    rcases h : alGet m x with _ | b
    · simp [hx]
    · simp
  · simp only [hc, if_true]
    exact alGet_replace_ne m k v x hx

lemma alGet_mem {β : Type} (m : List (String × β)) (k : String) (v : β)
    (h : alGet m k = some v) : (k, v) ∈ m := by
  unfold alGet at h
  rcases hf : m.find? (fun kv => kv.1 == k) with _ | kv
  · rw [hf] at h
    cases h
  · rw [hf] at h
    simp only [Option.map_some'] at h
    have hm := List.mem_of_find?_eq_some hf
    have hk : kv.1 = k := by simpa using List.find?_some hf
    have hv : kv.2 = v := Option.some.inj h
    rw [← hk, ← hv]
    simpa using hm

lemma mem_alSet {β : Type} (m : List (String × β)) (k : String) (v : β)
    (x : String × β) (h : x ∈ alSet m k v) : x = (k, v) ∨ x ∈ m := by
  unfold alSet at h
  by_cases hc : (m.map Prod.fst).contains k = true
  · rw [if_pos hc] at h
    obtain ⟨kv, hkv, heq⟩ := List.mem_map.mp h
    by_cases hb : kv.1 = k
    · have h2 : (kv.1 == k) = true := by simpa using hb
      left
      rw [← heq]
      simp [h2]
    · have h2 : (kv.1 == k) = false := by simpa using hb
      right
      rw [← heq]
      simpa [h2] using hkv
  · rw [if_neg hc] at h
    rcases List.mem_append.mp h with h1 | h1
    · right
      exact h1
    · left
      simpa using h1

lemma alSet_keys_mem {β : Type} (m : List (String × β)) (k : String) (v : β)
    (h : k ∈ m.map Prod.fst) :
    (alSet m k v).map Prod.fst = m.map Prod.fst := by
  unfold alSet
  have hc : (m.map Prod.fst).contains k = true := by simpa using h
  simp only [hc, if_true]
  rw [List.map_map]
  apply List.map_congr_left
  intro kv _
  by_cases hb : kv.1 = k
  · have h2 : (kv.1 == k) = true := by simpa using hb
    simp [Function.comp, h2, hb]
  · have h2 : (kv.1 == k) = false := by simpa using hb
    simp [Function.comp, h2]

lemma alSet_keys_not_mem {β : Type} (m : List (String × β)) (k : String) (v : β)
    (h : k ∉ m.map Prod.fst) :
    (alSet m k v).map Prod.fst = m.map Prod.fst ++ [k] := by
  unfold alSet
  have hc : (m.map Prod.fst).contains k = false := by simpa using h
  rw [if_neg (by rw [hc]; exact Bool.false_ne_true)]
  simp only [List.map_append, List.map_cons, List.map_nil]

lemma processExhaustEvent_keys (sel : List String)
    (acc : List (String × List (String × BehavAcc))) (e : Event) :
    (processExhaustEvent sel acc e).map Prod.fst =
      if e.subject ∈ acc.map Prod.fst then acc.map Prod.fst
      else acc.map Prod.fst ++ [e.subject] := by
  unfold processExhaustEvent
  by_cases h : e.subject ∈ acc.map Prod.fst
  · rw [if_pos h, alSet_keys_mem _ _ _ h]
  · rw [if_neg h, alSet_keys_not_mem _ _ _ h]

lemma distinctAux_congr_seen {α : Type} [BEq α] [LawfulBEq α] :
    ∀ (l s1 s2 : List α), (∀ a, a ∈ s1 ↔ a ∈ s2) →
      distinctAux s1 l = distinctAux s2 l := by
  intro l
  induction l with
  | nil => intro s1 s2 _; rfl
  | cons x xs ih =>
    intro s1 s2 hiff
    have hcc : s1.contains x = s2.contains x := by
      by_cases hx : x ∈ s1
      · rw [(by simpa using hx : s1.contains x = true),
          (by simpa using (hiff x).mp hx : s2.contains x = true)]
      · rw [(by simpa using hx : s1.contains x = false),
          (by simpa using (fun h2 => hx ((hiff x).mpr h2)) : s2.contains x = false)]
    rw [distinctAux, distinctAux, hcc]
    cases h2 : s2.contains x
    · simp only [h2, Bool.false_eq_true, if_false]
      rw [ih (x :: s1) (x :: s2) (by intro a; simp [hiff a])]
    · simp only [h2, if_true]
      exact ih s1 s2 hiff

lemma distinctAux_nodup {α : Type} [BEq α] [LawfulBEq α] :
    ∀ (l seen : List α), (distinctAux seen l).Nodup := by
  intro l
  induction l with
  | nil => intro seen; exact List.nodup_nil
  | cons x xs ih =>
    intro seen
    rw [distinctAux]
    cases hx : seen.contains x
    · simp only [hx, Bool.false_eq_true, if_false]
      rw [List.nodup_cons]
      refine ⟨fun hmem => ?_, ih (x :: seen)⟩
      exact ((mem_distinctAux x xs (x :: seen)).mp hmem).2 (List.mem_cons_self _ _)
    · simp only [hx, if_true]
      exact ih seen

lemma buildIntervals_keys_aux (sel : List String) :
    ∀ (events : List Event) (acc : List (String × List (String × BehavAcc))),
      (events.foldl (processExhaustEvent sel) acc).map Prod.fst =
        acc.map Prod.fst ++
          distinctAux (acc.map Prod.fst) (events.map (fun e => e.subject)) := by
  intro events
  induction events with
  | nil => intro acc; simp [distinctAux]
  | cons e rest ih =>
    intro acc
    rw [List.foldl_cons, ih, processExhaustEvent_keys]
    by_cases h : e.subject ∈ acc.map Prod.fst
    · rw [if_pos h]
      have hc : (acc.map Prod.fst).contains e.subject = true := by simpa using h
      simp only [List.map_cons, distinctAux, hc, if_true]
    · rw [if_neg h]
      have hc : (acc.map Prod.fst).contains e.subject = false := by simpa using h
      simp only [List.map_cons, distinctAux, hc, Bool.false_eq_true, if_false]
      rw [distinctAux_congr_seen (rest.map (fun e => e.subject)) _
        (e.subject :: acc.map Prod.fst) (by intro a; simp [or_comm])]
      simp [List.append_assoc]

lemma buildIntervals_keys (sel : List String) (events : List Event) :
    (buildIntervals sel events).map Prod.fst = distinctSubjects events := by
  rw [buildIntervals, buildIntervals_keys_aux]
  simp [distinctSubjects, distinctList]

lemma buildIntervals_keys_nodup (sel : List String) (events : List Event) :
    ((buildIntervals sel events).map Prod.fst).Nodup := by
  rw [buildIntervals_keys]
  exact distinctAux_nodup _ _

lemma assoc_map_values {β γ : Type} (g : String → β → γ) (d : β) :
    ∀ (m : List (String × β)), (m.map Prod.fst).Nodup →
      m.map (fun kv => g kv.1 kv.2) =
        (m.map Prod.fst).map (fun k => g k ((alGet m k).getD d)) := by
  intro m
  induction m with
  | nil => intro _; rfl
  | cons kv rest ih =>
    intro hnd
    rw [List.map_cons, List.nodup_cons] at hnd
    simp only [List.map_cons]
    congr 1
    · have hself : alGet (kv :: rest) kv.1 = some kv.2 := by
        simp [alGet, List.find?_cons]
      rw [hself]
      rfl
    · rw [ih hnd.2]
      apply List.map_congr_left
      intro k hk2
      have hne : kv.1 ≠ k := fun hcon => hnd.1 (hcon ▸ hk2)
      have h2 : (kv.1 == k) = false := by simpa using hne
      simp [alGet, List.find?_cons, h2]

lemma theo_match_eq (events : List Event) :
    (match events with
     | [] => (0 : ℚ)
     | e :: rest => (pyMaxEvent e rest).time - (pyMinEvent e rest).time) =
      theoDur events := by
  cases events with
  | nil =>
    show (0 : ℚ) = theoDur []
    simp [theoDur, timesMax, timesMin]
  | cons e rest =>
    show (pyMaxEvent e rest).time - (pyMinEvent e rest).time = theoDur (e :: rest)
    rw [pyMaxEvent_time, pyMinEvent_time]
    rfl

lemma total_duration_eq (sel : List String) (events : List Event) (theo : ℚ) :
    ((buildIntervals sel events).map (fun kv =>
        if interval_len (kv.2.flatMap (fun bv => bv.2.interval)) ≥ theo then theo
        else interval_len (kv.2.flatMap (fun bv => bv.2.interval)))).sum =
      ((distinctSubjects events).map (fun s =>
        if observedDur sel events s ≥ theo then theo
        else observedDur sel events s)).sum := by
  rw [assoc_map_values
      (fun _ v => if interval_len (v.flatMap (fun bv => bv.2.interval)) ≥ theo then theo
        else interval_len (v.flatMap (fun bv => bv.2.interval))) []
      (buildIntervals sel events) (buildIntervals_keys_nodup sel events),
    buildIntervals_keys]
  simp [observedDur]

lemma distinctSubjects_ne_nil (events : List Event) (h : events ≠ []) :
    distinctSubjects events ≠ [] := by
  cases events with
  | nil => exact absurd rfl h
  | cons e rest =>
    simp [distinctSubjects, distinctList, distinctAux]

/-- C4.  The exhaustivity calculator takes the theoretical duration to be
(max event time) − (min event time) over all events of the observation (not
per subject), and returns the sum of per-subject observed durations divided by
(number of distinct subjects × theoretical duration), times 100, rounded to
one decimal; it returns 0 when the event list is empty or the theoretical
duration is zero. -/
theorem check_observation_exhaustivity_formula
    (events : List Event) (ethogram : List EthogramEntry)
    (state_events_list : List String) :
    ((events = [] ∨ theoDur events = 0) →
      check_observation_exhaustivity events ethogram state_events_list = 0) ∧
    (events ≠ [] → theoDur events ≠ 0 →
      check_observation_exhaustivity events ethogram state_events_list =
        pyRound1 ((((distinctSubjects events).map (fun s =>
            if observedDur (selStateList ethogram state_events_list) events s ≥
                theoDur events
            then theoDur events
            else observedDur (selStateList ethogram state_events_list) events s)).sum) /
          ((distinctSubjects events).length * theoDur events) * 100)) := by
  have hlen : (buildIntervals (selStateList ethogram state_events_list) events).length =
      (distinctSubjects events).length := by
    rw [← buildIntervals_keys (selStateList ethogram state_events_list) events,
      List.length_map]
  constructor
  · rintro (rfl | hz)
    · simp [check_observation_exhaustivity, buildIntervals, pyRound1_zero]
    · simp only [check_observation_exhaustivity]
      rw [theo_match_eq, if_neg (by simp [hz])]
      exact pyRound1_zero
  · intro hne hz
    have hpos : (buildIntervals (selStateList ethogram state_events_list) events).length ≠ 0 ∧
        theoDur events ≠ 0 := by
      refine ⟨?_, hz⟩
      rw [hlen]
      exact fun hcon =>
        distinctSubjects_ne_nil events hne (List.eq_nil_of_length_eq_zero hcon)
    simp only [check_observation_exhaustivity]
    rw [theo_match_eq, if_pos hpos, total_duration_eq, hlen]

/-- Witness for C4 at a concrete input (the empty-event fallback). -/
theorem check_observation_exhaustivity_formula_witness :
    check_observation_exhaustivity [] [] [] = 0 :=
  (check_observation_exhaustivity_formula [] [] []).1 (Or.inl rfl)

lemma pyRound1_ratio_bounds (total den : ℚ) (h0 : 0 ≤ total) (hd : 0 < den)
    (hle : total ≤ den) :
    0 ≤ pyRound1 (total / den * 100) ∧ pyRound1 (total / den * 100) ≤ 100 := by
  constructor
  · exact pyRound1_nonneg _ (mul_nonneg (div_nonneg h0 hd.le) (by norm_num))
  · apply pyRound1_le_hundred
    have hq : total / den ≤ 1 := by
      rw [div_le_one hd]
      exact hle
    calc total / den * 100 ≤ 1 * 100 := mul_le_mul_of_nonneg_right hq (by norm_num)
    _ = 100 := one_mul 100

lemma exhaustivity_full_span (ethogram : List EthogramEntry) (sl : List String)
    (a b : ℚ) (sub code m cm : String) (hab : a < b)
    (hsel : code ∈ selStateList ethogram sl) :
    check_observation_exhaustivity [⟨a, sub, code, m, cm⟩, ⟨b, sub, code, m, cm⟩]
      ethogram sl = 100 := by
  have hc : (selStateList ethogram sl).contains code = true := by simpa using hsel
  have hbuild : buildIntervals (selStateList ethogram sl)
      [⟨a, sub, code, m, cm⟩, ⟨b, sub, code, m, cm⟩] =
      [(sub, [(code, ⟨[IntervalPiece.closedopen a b], []⟩)])] := by
    simp [buildIntervals, processExhaustEvent, alGet, alSet, updateBehav, hc, hsel]
  have hmm : (pyMaxEvent (⟨a, sub, code, m, cm⟩ : Event) [⟨b, sub, code, m, cm⟩]).time -
      (pyMinEvent (⟨a, sub, code, m, cm⟩ : Event) [⟨b, sub, code, m, cm⟩]).time = b - a := by
    rw [pyMaxEvent_time, pyMinEvent_time]
    simp [timesMax, timesMin, max_eq_right hab.le, min_eq_left hab.le]
  have hba : b - a ≠ 0 := sub_ne_zero.mpr hab.ne'
  have hil : interval_len
      ([(code, (⟨[IntervalPiece.closedopen a b], []⟩ : BehavAcc))].flatMap
        (fun bv => bv.2.interval)) = b - a := by
    have hfl : ([(code, (⟨[IntervalPiece.closedopen a b], []⟩ : BehavAcc))].flatMap
        (fun bv => bv.2.interval)) = [IntervalPiece.closedopen a b] := by
      simp
    rw [hfl, interval_len_single a b hab]
  simp only [check_observation_exhaustivity]
  rw [hmm, hbuild]
  rw [if_pos ⟨by simp, hba⟩]
  simp only [List.map_cons, List.map_nil, hil]
  rw [if_pos (le_refl (b - a))]
  simp only [List.sum_cons, List.sum_nil, add_zero, List.length_cons, List.length_nil,
    Nat.zero_add, Nat.cast_one, one_mul]
  rw [div_self hba, one_mul, pyRound1_hundred]

/-- C7.  For every event list, the overall exhaustivity lies in [0, 100]
(each subject's observed duration being clamped to the theoretical duration),
and a single State interval spanning the whole `[min event time, max event
time]` for the only subject yields exactly 100. -/
theorem check_observation_exhaustivity_bounds
    (events : List Event) (ethogram : List EthogramEntry)
    (state_events_list : List String) :
    (0 ≤ check_observation_exhaustivity events ethogram state_events_list ∧
      check_observation_exhaustivity events ethogram state_events_list ≤ 100) ∧
    (∀ (a b : ℚ) (sub code m cm : String), a < b →
      code ∈ selStateList ethogram state_events_list →
      check_observation_exhaustivity
          [⟨a, sub, code, m, cm⟩, ⟨b, sub, code, m, cm⟩] ethogram state_events_list =
        100) := by
  constructor
  · simp only [check_observation_exhaustivity]
    rw [theo_match_eq]
    by_cases hcond :
        (buildIntervals (selStateList ethogram state_events_list) events).length ≠ 0 ∧
          theoDur events ≠ 0
    · rw [if_pos hcond]
      have htheo0 : 0 ≤ theoDur events := sub_nonneg.mpr (timesMin_le_timesMax _)
      have htheo : 0 < theoDur events := lt_of_le_of_ne htheo0 (Ne.symm hcond.2)
      have hterm : ∀ kv : String × List (String × BehavAcc),
          0 ≤ (if interval_len (kv.2.flatMap (fun bv => bv.2.interval)) ≥ theoDur events
            then theoDur events
            else interval_len (kv.2.flatMap (fun bv => bv.2.interval))) ∧
          (if interval_len (kv.2.flatMap (fun bv => bv.2.interval)) ≥ theoDur events
            then theoDur events
            else interval_len (kv.2.flatMap (fun bv => bv.2.interval))) ≤ theoDur events := by
        intro kv
        by_cases hge : interval_len (kv.2.flatMap (fun bv => bv.2.interval)) ≥ theoDur events
        · rw [if_pos hge]
          exact ⟨htheo0, le_refl _⟩
        · rw [if_neg hge]
          exact ⟨interval_len_nonneg _, (not_le.mp hge).le⟩
      have hlenpos : 0 <
          (buildIntervals (selStateList ethogram state_events_list) events).length :=
        Nat.pos_of_ne_zero hcond.1
      apply pyRound1_ratio_bounds
      · apply List.sum_nonneg
        intro x hx
        obtain ⟨kv, _, rfl⟩ := List.mem_map.mp hx
        exact (hterm kv).1
      · apply mul_pos _ htheo
        exact_mod_cast hlenpos
      · have hsumle := List.sum_le_card_nsmul
          ((buildIntervals (selStateList ethogram state_events_list) events).map
            (fun kv =>
              if interval_len (kv.2.flatMap (fun bv => bv.2.interval)) ≥ theoDur events
              then theoDur events
              else interval_len (kv.2.flatMap (fun bv => bv.2.interval))))
          (theoDur events)
          (by
            intro x hx
            obtain ⟨kv, _, rfl⟩ := List.mem_map.mp hx
            exact (hterm kv).2)
        calc ((buildIntervals (selStateList ethogram state_events_list) events).map
              (fun kv =>
                if interval_len (kv.2.flatMap (fun bv => bv.2.interval)) ≥ theoDur events
                then theoDur events
                else interval_len (kv.2.flatMap (fun bv => bv.2.interval)))).sum ≤
            ((buildIntervals (selStateList ethogram state_events_list) events).map
              (fun kv =>
                if interval_len (kv.2.flatMap (fun bv => bv.2.interval)) ≥ theoDur events
                then theoDur events
                else interval_len (kv.2.flatMap (fun bv => bv.2.interval)))).length •
              theoDur events := hsumle
        _ = ((buildIntervals (selStateList ethogram state_events_list) events).length : ℚ) *
              theoDur events := by
            rw [List.length_map, nsmul_eq_mul]
    · rw [if_neg hcond, pyRound1_zero]
      norm_num
  · intro a b sub code m cm hab hsel
    exact exhaustivity_full_span ethogram state_events_list a b sub code m cm hab hsel

/-- Witness for C7 at a concrete input: one State interval spanning the whole
observation for the only subject gives exactly 100. -/
theorem check_observation_exhaustivity_bounds_witness :
    check_observation_exhaustivity [⟨0, "s", "run", "", ""⟩, ⟨1, "s", "run", "", ""⟩]
      [⟨"run", "State event"⟩] [] = 100 :=
  (check_observation_exhaustivity_bounds [] [⟨"run", "State event"⟩] []).2
    0 1 "s" "run" "" "" zero_lt_one (by decide)

lemma observedDur_zero_of_point_only (sel : List String) (events : List Event)
    (s : String)
    (h : ∀ e ∈ events, e.subject = s → sel.contains e.code = false) :
    observedDur sel events s = 0 := by
  have H : ∀ (evs : List Event) (acc : List (String × List (String × BehavAcc))),
      (∀ e ∈ evs, e.subject = s → sel.contains e.code = false) →
      (∀ bmap, alGet acc s = some bmap →
        ∀ bv ∈ bmap, ∀ p ∈ bv.2.interval, ∃ t, p = IntervalPiece.singleton t) →
      (∀ bmap, alGet (evs.foldl (processExhaustEvent sel) acc) s = some bmap →
        ∀ bv ∈ bmap, ∀ p ∈ bv.2.interval, ∃ t, p = IntervalPiece.singleton t) := by
    intro evs
    induction evs with
    | nil =>
      intro acc _ hacc
      exact hacc
    | cons e rest ih =>
      intro acc hev hacc
      rw [List.foldl_cons]
      apply ih _ (fun e2 he2 hs2 => hev e2 (List.mem_cons_of_mem _ he2) hs2)
      intro bmap hbm bv hbv p hp
      by_cases hes : e.subject = s
      · have hcode : sel.contains e.code = false := hev e (List.mem_cons_self _ _) hes
        simp only [processExhaustEvent] at hbm
        rw [hes, alGet_alSet_self] at hbm
        have hbmap := Option.some.inj hbm
        rw [← hbmap] at hbv
        have hbeh : ∀ bv0,
            alGet ((alGet acc s).getD []) e.code = some bv0 →
            ∀ p0 ∈ bv0.interval, ∃ t, p0 = IntervalPiece.singleton t := by
          intro bv0 hbv0 p0 hp0
          rcases hsm : alGet acc s with _ | m0
          · rw [hsm] at hbv0
            simp [alGet] at hbv0
          · rw [hsm] at hbv0
            simp only [Option.getD_some] at hbv0
            exact hacc m0 hsm (e.code, bv0) (alGet_mem _ _ _ hbv0) p0 hp0
        rcases mem_alSet _ _ _ _ hbv with hbveq | hbvin
        · rw [hbveq] at hp
          simp only at hp
          rw [updateBehav, hcode] at hp
          simp only [Bool.false_eq_true, if_false] at hp
          rcases List.mem_append.mp hp with hpold | hpnew
          · rcases hbeha : alGet ((alGet acc s).getD []) e.code with _ | bv0
            · rw [hbeha] at hpold
              simp at hpold
            · rw [hbeha] at hpold
              simp only [Option.getD_some] at hpold
              exact hbeh bv0 hbeha p hpold
          · exact ⟨e.time, by simpa using hpnew⟩
        · rcases hsm : alGet acc s with _ | m0
          · rw [hsm] at hbvin
            simp at hbvin
          · rw [hsm] at hbvin
            simp only [Option.getD_some] at hbvin
            exact hacc m0 hsm bv hbvin p hp
      · simp only [processExhaustEvent] at hbm
        rw [alGet_alSet_ne _ _ _ _ (fun hcon => hes hcon.symm)] at hbm
        exact hacc bmap hbm bv hbv p hp
  have hinv := H events [] h (by intro bmap hbm; simp [alGet] at hbm)
  rw [observedDur]
  rcases hget : alGet (buildIntervals sel events) s with _ | bmap
  · rfl
  · apply interval_len_singletons
    intro p hp
    simp only [Option.getD_some] at hp
    obtain ⟨bv, hbv, hpin⟩ := List.mem_flatMap.mp hp
    exact hinv bmap hget bv hbv p hpin

/-- C10.  The subject count in the exhaustivity denominator is the number of
distinct subjects occurring anywhere in the event list: a subject all of whose
events carry non-State codes (including codes absent from the ethogram) is
still keyed into `events_interval` and counts fully, while each such event
contributes only a zero-length singleton, so the subject's observed duration
is 0. -/
theorem exhaustivity_subject_count_and_point_contribution
    (events : List Event) (ethogram : List EthogramEntry)
    (state_events_list : List String) (s : String) :
    ((buildIntervals (selStateList ethogram state_events_list) events).map Prod.fst =
      distinctSubjects events) ∧
    (s ∈ events.map (fun e => e.subject) ↔
      s ∈ (buildIntervals (selStateList ethogram state_events_list) events).map
        Prod.fst) ∧
    ((∀ e ∈ events, e.subject = s →
        (selStateList ethogram state_events_list).contains e.code = false) →
      observedDur (selStateList ethogram state_events_list) events s = 0) ∧
    (∀ c : String, (∀ b ∈ ethogram, b.code ≠ c) →
      c ∉ state_behavior_codes ethogram) := by
  refine ⟨buildIntervals_keys _ _, ?_, ?_, ?_⟩
  · rw [buildIntervals_keys, distinctSubjects, distinctList, mem_distinctAux]
    simp
  · exact observedDur_zero_of_point_only _ events s
  · intro c habs hc
    obtain ⟨b, hb, hbe⟩ := List.mem_map.mp hc
    exact habs b (List.mem_filter.mp hb).1 hbe

/-- Witness for C10 at a concrete input: a subject whose only event carries a
code absent from the ethogram counts in the key list but contributes zero
duration. -/
theorem exhaustivity_subject_count_and_point_contribution_witness :
    observedDur (selStateList [⟨"run", "State event"⟩] [])
      [⟨0, "s", "walk", "", ""⟩] "s" = 0 :=
  (exhaustivity_subject_count_and_point_contribution [⟨0, "s", "walk", "", ""⟩]
    [⟨"run", "State event"⟩] [] "s").2.2.1 (by decide)

/-! ### Window clipper (arbitrary-interval branch of `time_budget`,
time_budget_widget.py 367-428) -/

/-- One row of the aggregated-events table, columns `(subject, code, type,
modifiers, occurence)`, for a single observation. -/
structure Row where
  subject : String
  code : String
  type : String
  modifiers : String
  occurence : ℚ
deriving DecidableEq, Repr

/-- `SELECT DISTINCT modifiers FROM events WHERE subject = ? AND code = ?` in
table scan order. -/
def distinctMods (rows : List Row) (subj behav : String) : List String :=
  distinctList ((rows.filter (fun r => r.subject == subj && r.code == behav)).map
    (fun r => r.modifiers))

/-- Number of the key's rows strictly before the window start
(`occurence < min_time`). -/
def countBelow (rows : List Row) (subj behav m : String) (tmin : ℚ) : Nat :=
  (rows.filter (fun r =>
    r.subject == subj && r.code == behav && r.modifiers == m &&
      decide (r.occurence < tmin))).length

/-- Number of the key's rows strictly after the window end
(`occurence > max_time`). -/
def countAbove (rows : List Row) (subj behav m : String) (tmax : ℚ) : Nat :=
  (rows.filter (fun r =>
    r.subject == subj && r.code == behav && r.modifiers == m &&
      decide (r.occurence > tmax))).length

/-- One distinct modifier of a (subject, behavior) key: insert a boundary
`STATE` row at `tmin` when the count before the window is odd, then one at
`tmax` when the count after the window is odd. -/
def processModifier (subj behav : String) (tmin tmax : ℚ) (rows : List Row)
    (m : String) : List Row :=
  let rows1 :=
    if countBelow rows subj behav m tmin % 2 = 1 then
      rows ++ [⟨subj, behav, "STATE", m, tmin⟩]
    else rows
  if countAbove rows1 subj behav m tmax % 2 = 1 then
    rows1 ++ [⟨subj, behav, "STATE", m, tmax⟩]
  else rows1

/-- One selected behavior: skip Point-typed behaviors
(`if cfg.POINT in self.eventType(behav).upper(): continue`; a code missing
from the ethogram would raise in the source and is modelled as not Point),
otherwise process every distinct modifier of the key. -/
def processBehavior (ethogram : List EthogramEntry) (subj : String) (tmin tmax : ℚ)
    (rows : List Row) (behav : String) : List Row :=
  if (match event_type ethogram behav with
      | some t => strContains (strUpper t) "POINT"
      | none => false) then rows
  else (distinctMods rows subj behav).foldl (processModifier subj behav tmin tmax) rows

/-- The arbitrary-interval clipping of `time_budget`: synthesize boundary rows
for every (selected subject, selected non-Point behavior, distinct modifier)
key, then `DELETE FROM events WHERE occurence < min_time OR occurence >
max_time`. -/
def time_budget_clip (ethogram : List EthogramEntry)
    (selSubjects selBehaviors : List String) (tmin tmax : ℚ) (rows : List Row) :
    List Row :=
  let inserted := selSubjects.foldl
    (fun acc subj => selBehaviors.foldl (processBehavior ethogram subj tmin tmax) acc)
    rows
  inserted.filter (fun r => !(decide (r.occurence < tmin) || decide (r.occurence > tmax)))

lemma foldl_fixed_of_mem {α β : Type} (f : α → β → α) (a : α) (l : List β)
    (h : ∀ x ∈ l, f a x = a) : l.foldl f a = a := by
  induction l with
  | nil => rfl
  | cons x xs ih =>
    rw [List.foldl_cons, h x (List.mem_cons_self _ _)]
    exact ih (fun y hy => h y (List.mem_cons_of_mem _ hy))

lemma foldl_mem_mono {α β : Type} (f : List α → β → List α)
    (hmono : ∀ acc y, ∀ r : α, r ∈ acc → r ∈ f acc y) :
    ∀ (l : List β) (acc : List α) (r : α), r ∈ acc → r ∈ l.foldl f acc := by
  intro l
  induction l with
  | nil => intro acc r hr; exact hr
  | cons y ys ih =>
    intro acc r hr
    rw [List.foldl_cons]
    exact ih (f acc y) r (hmono acc y r hr)

lemma foldl_preserves {α β : Type} (f : α → β → α) (P : α → Prop)
    (hpres : ∀ a y, P a → P (f a y)) :
    ∀ (l : List β) (a : α), P a → P (l.foldl f a) := by
  intro l
  induction l with
  | nil => intro a ha; exact ha
  | cons y ys ih =>
    intro a ha
    rw [List.foldl_cons]
    exact ih (f a y) (hpres a y ha)

lemma mem_foldl_of_mem {α β : Type} (f : List α → β → List α) (P : List α → Prop)
    (target : α) (x : β)
    (hpres : ∀ acc y, P acc → P (f acc y))
    (hmono : ∀ acc y, ∀ r : α, r ∈ acc → r ∈ f acc y)
    (hx : ∀ acc, P acc → target ∈ f acc x) :
    ∀ (l : List β) (acc : List α), P acc → x ∈ l → target ∈ l.foldl f acc := by
  intro l
  induction l with
  | nil =>
    intro acc _ hmem
    cases hmem
  | cons y ys ih =>
    intro acc hP hmem
    rw [List.foldl_cons]
    rcases List.mem_cons.mp hmem with rfl | hmem2
    · exact foldl_mem_mono f hmono ys (f acc x) target (hx acc hP)
    · exact ih (f acc y) (hpres acc y hP) hmem2

lemma processModifier_fixed (subj behav : String) (tmin tmax : ℚ) (t : List Row)
    (h : ∀ r ∈ t, ¬(r.occurence < tmin) ∧ ¬(r.occurence > tmax)) (m : String) :
    processModifier subj behav tmin tmax t m = t := by
  have hb : countBelow t subj behav m tmin = 0 := by
    rw [countBelow, List.length_eq_zero]
    rw [List.filter_eq_nil_iff]
    intro r hr
    simp [(h r hr).1]
  have ha : countAbove t subj behav m tmax = 0 := by
    rw [countAbove, List.length_eq_zero, List.filter_eq_nil_iff]
    intro r hr
    simp [(h r hr).2]
  rw [processModifier, hb]
  norm_num [ha]

lemma processBehavior_fixed (ethogram : List EthogramEntry) (subj : String)
    (tmin tmax : ℚ) (t : List Row)
    (h : ∀ r ∈ t, ¬(r.occurence < tmin) ∧ ¬(r.occurence > tmax)) (behav : String) :
    processBehavior ethogram subj tmin tmax t behav = t := by
  rw [processBehavior]
  by_cases hpt : (match event_type ethogram behav with
      | some t0 => strContains (strUpper t0) "POINT"
      | none => false) = true
  · rw [if_pos hpt]
  · rw [if_neg hpt]
    exact foldl_fixed_of_mem _ _ _
      (fun m _ => processModifier_fixed subj behav tmin tmax t h m)

lemma time_budget_clip_mem_bounds (ethogram : List EthogramEntry)
    (selSubjects selBehaviors : List String) (tmin tmax : ℚ) (rows : List Row) :
    ∀ r ∈ time_budget_clip ethogram selSubjects selBehaviors tmin tmax rows,
      ¬(r.occurence < tmin) ∧ ¬(r.occurence > tmax) := by
  intro r hr
  rw [time_budget_clip] at hr
  have h2 := (List.mem_filter.mp hr).2
  simp only [Bool.not_or, Bool.and_eq_true, Bool.not_eq_true',
    decide_eq_false_iff_not] at h2
  exact h2

/-- C9.  Clipping an already-clipped event set to the same window again
produces an identical result (the clipper is idempotent); clipping the state
interval `[0, 5)` to the window `[2, 8]` keeps the row at 5 and synthesizes a
START row at 2 — the interval `[2, 5)` with nothing lost at the non-crossing
edge. -/
theorem time_budget_clip_idempotent
    (ethogram : List EthogramEntry) (selSubjects selBehaviors : List String)
    (tmin tmax : ℚ) (rows : List Row) :
    (time_budget_clip ethogram selSubjects selBehaviors tmin tmax
        (time_budget_clip ethogram selSubjects selBehaviors tmin tmax rows) =
      time_budget_clip ethogram selSubjects selBehaviors tmin tmax rows) ∧
    (time_budget_clip [⟨"run", "State event"⟩] ["s"] ["run"] 2 8
        [⟨"s", "run", "STATE", "", 0⟩, ⟨"s", "run", "STATE", "", 5⟩] =
      [⟨"s", "run", "STATE", "", 5⟩, ⟨"s", "run", "STATE", "", 2⟩]) := by
  constructor
  · set out := time_budget_clip ethogram selSubjects selBehaviors tmin tmax rows with hout
    have hb := time_budget_clip_mem_bounds ethogram selSubjects selBehaviors tmin tmax rows
    rw [← hout] at hb
    have hins : selSubjects.foldl
        (fun acc subj =>
          selBehaviors.foldl (processBehavior ethogram subj tmin tmax) acc) out = out := by
      apply foldl_fixed_of_mem
      intro subj _
      apply foldl_fixed_of_mem
      intro behav _
      exact processBehavior_fixed ethogram subj tmin tmax out hb behav
    simp only [time_budget_clip]
    rw [hins]
    apply List.filter_eq_self.mpr
    intro r hr
    simp [(hb r hr).1, (hb r hr).2]
  · have hpt : (match event_type [⟨"run", "State event"⟩] "run" with
        | some t0 => strContains (strUpper t0) "POINT"
        | none => false) = false := by decide
    norm_num [time_budget_clip, processBehavior, hpt, processModifier, distinctMods,
      distinctList, distinctAux, countBelow, countAbove]

/-- The rows appended by the clipper's insertion phase: the table extends the
original rows with boundary rows at the window edges only. -/
def BoundaryExt (rows : List Row) (tmin tmax : ℚ) (t : List Row) : Prop :=
  ∃ ext, t = rows ++ ext ∧ ∀ y ∈ ext, y.occurence = tmin ∨ y.occurence = tmax

lemma foldl_append_only {β : Type} (f : List Row → β → List Row) (Q : Row → Prop)
    (hf : ∀ acc x, ∃ ext, f acc x = acc ++ ext ∧ ∀ y ∈ ext, Q y) :
    ∀ (l : List β) (acc : List Row),
      ∃ ext, l.foldl f acc = acc ++ ext ∧ ∀ y ∈ ext, Q y := by
  intro l
  induction l with
  | nil =>
    intro acc
    exact ⟨[], by simp, by simp⟩
  | cons x xs ih =>
    intro acc
    obtain ⟨e1, he1, hq1⟩ := hf acc x
    obtain ⟨e2, he2, hq2⟩ := ih (f acc x)
    refine ⟨e1 ++ e2, ?_, ?_⟩
    · rw [List.foldl_cons, he2, he1, List.append_assoc]
    · intro y hy
      rcases List.mem_append.mp hy with h | h
      · exact hq1 y h
      · exact hq2 y h

lemma processModifier_append (subj behav : String) (tmin tmax : ℚ) (acc : List Row)
    (m : String) :
    ∃ ext, processModifier subj behav tmin tmax acc m = acc ++ ext ∧
      ∀ y ∈ ext, y.occurence = tmin ∨ y.occurence = tmax := by
  simp only [processModifier]
  by_cases h1 : countBelow acc subj behav m tmin % 2 = 1
  · rw [if_pos h1]
    by_cases h2 : countAbove (acc ++ [⟨subj, behav, "STATE", m, tmin⟩])
        subj behav m tmax % 2 = 1
    · rw [if_pos h2]
      refine ⟨[⟨subj, behav, "STATE", m, tmin⟩, ⟨subj, behav, "STATE", m, tmax⟩], ?_, ?_⟩
      · rw [List.append_assoc]
        rfl
      · intro y hy
        simp only [List.mem_cons, List.mem_singleton] at hy
        rcases hy with rfl | rfl | hy
        · exact Or.inl rfl
        · exact Or.inr rfl
        · cases hy
    · rw [if_neg h2]
      refine ⟨[⟨subj, behav, "STATE", m, tmin⟩], rfl, ?_⟩
      intro y hy
      rw [List.mem_singleton] at hy
      subst hy
      exact Or.inl rfl
  · rw [if_neg h1]
    by_cases h2 : countAbove acc subj behav m tmax % 2 = 1
    · rw [if_pos h2]
      refine ⟨[⟨subj, behav, "STATE", m, tmax⟩], rfl, ?_⟩
      intro y hy
      rw [List.mem_singleton] at hy
      subst hy
      exact Or.inr rfl
    · rw [if_neg h2]
      exact ⟨[], by simp, by simp⟩

lemma processBehavior_append (ethogram : List EthogramEntry) (subj : String)
    (tmin tmax : ℚ) (acc : List Row) (behav : String) :
    ∃ ext, processBehavior ethogram subj tmin tmax acc behav = acc ++ ext ∧
      ∀ y ∈ ext, y.occurence = tmin ∨ y.occurence = tmax := by
  rw [processBehavior]
  by_cases hpt : (match event_type ethogram behav with
      | some t0 => strContains (strUpper t0) "POINT"
      | none => false) = true
  · rw [if_pos hpt]
    exact ⟨[], by simp, by simp⟩
  · rw [if_neg hpt]
    exact foldl_append_only _ _
      (fun a x => processModifier_append subj behav tmin tmax a x) _ acc

lemma countBelow_append_boundary (rows ext : List Row) (subj behav m : String)
    (tmin tmax : ℚ) (htm : tmin ≤ tmax)
    (hq : ∀ y ∈ ext, y.occurence = tmin ∨ y.occurence = tmax) :
    countBelow (rows ++ ext) subj behav m tmin = countBelow rows subj behav m tmin := by
  rw [countBelow, countBelow, List.filter_append, List.length_append]
  have hnil : ext.filter (fun r =>
      r.subject == subj && r.code == behav && r.modifiers == m &&
        decide (r.occurence < tmin)) = [] := by
    rw [List.filter_eq_nil_iff]
    intro y hy
    rcases hq y hy with h | h
    · simp [h]
    · simp [h, not_lt.mpr htm]
  rw [hnil]
  simp

lemma countAbove_append_boundary (rows ext : List Row) (subj behav m : String)
    (tmin tmax : ℚ) (htm : tmin ≤ tmax)
    (hq : ∀ y ∈ ext, y.occurence = tmin ∨ y.occurence = tmax) :
    countAbove (rows ++ ext) subj behav m tmax = countAbove rows subj behav m tmax := by
  rw [countAbove, countAbove, List.filter_append, List.length_append]
  have hnil : ext.filter (fun r =>
      r.subject == subj && r.code == behav && r.modifiers == m &&
        decide (r.occurence > tmax)) = [] := by
    rw [List.filter_eq_nil_iff]
    intro y hy
    rcases hq y hy with h | h
    · simp [h, not_lt.mpr htm]
    · simp [h]
  rw [hnil]
  simp

lemma processModifier_inserts (rows : List Row) (subj behav m : String)
    (tmin tmax : ℚ) (htm : tmin ≤ tmax) (acc : List Row)
    (hP : BoundaryExt rows tmin tmax acc) :
    (Odd (countBelow rows subj behav m tmin) →
      (⟨subj, behav, "STATE", m, tmin⟩ : Row) ∈
        processModifier subj behav tmin tmax acc m) ∧
    (Odd (countAbove rows subj behav m tmax) →
      (⟨subj, behav, "STATE", m, tmax⟩ : Row) ∈
        processModifier subj behav tmin tmax acc m) := by
  obtain ⟨ext, rfl, hq⟩ := hP
  have hcb := countBelow_append_boundary rows ext subj behav m tmin tmax htm hq
  simp only [processModifier]
  constructor
  · intro hodd
    have h1 : countBelow (rows ++ ext) subj behav m tmin % 2 = 1 := by
      rw [hcb]
      exact Nat.odd_iff.mp hodd
    rw [if_pos h1]
    by_cases h2 : countAbove ((rows ++ ext) ++ [⟨subj, behav, "STATE", m, tmin⟩])
        subj behav m tmax % 2 = 1
    · rw [if_pos h2]
      simp
    · rw [if_neg h2]
      simp
  · intro hodd
    by_cases h1 : countBelow (rows ++ ext) subj behav m tmin % 2 = 1
    · rw [if_pos h1]
      have hca : countAbove ((rows ++ ext) ++ [⟨subj, behav, "STATE", m, tmin⟩])
          subj behav m tmax = countAbove rows subj behav m tmax := by
        rw [List.append_assoc]
        apply countAbove_append_boundary rows _ subj behav m tmin tmax htm
        intro y hy
        rcases List.mem_append.mp hy with h | h
        · exact hq y h
        · rw [List.mem_singleton] at h
          subst h
          exact Or.inl rfl
      rw [if_pos (by rw [hca]; exact Nat.odd_iff.mp hodd)]
      simp
    · rw [if_neg h1]
      have hca := countAbove_append_boundary rows ext subj behav m tmin tmax htm hq
      rw [if_pos (by rw [hca]; exact Nat.odd_iff.mp hodd)]
      simp

lemma mem_distinctList {α : Type} [BEq α] [LawfulBEq α] (a : α) (l : List α) :
    a ∈ distinctList l ↔ a ∈ l := by
  rw [distinctList, mem_distinctAux]
  simp

lemma processBehavior_inserts (ethogram : List EthogramEntry) (rows : List Row)
    (subj behav m : String) (tmin tmax : ℚ) (htm : tmin ≤ tmax)
    (hnp : (match event_type ethogram behav with
        | some t0 => strContains (strUpper t0) "POINT"
        | none => false) = false)
    (hm : m ∈ distinctMods rows subj behav) (acc : List Row)
    (hP : BoundaryExt rows tmin tmax acc) :
    (Odd (countBelow rows subj behav m tmin) →
      (⟨subj, behav, "STATE", m, tmin⟩ : Row) ∈
        processBehavior ethogram subj tmin tmax acc behav) ∧
    (Odd (countAbove rows subj behav m tmax) →
      (⟨subj, behav, "STATE", m, tmax⟩ : Row) ∈
        processBehavior ethogram subj tmin tmax acc behav) := by
  have hm2 : m ∈ distinctMods acc subj behav := by
    obtain ⟨ext, rfl, _⟩ := hP
    rw [distinctMods, mem_distinctList] at hm ⊢
    rw [List.filter_append, List.map_append]
    exact List.mem_append_left _ hm
  rw [processBehavior, if_neg (by rw [hnp]; exact Bool.false_ne_true)]
  have hpres : ∀ (a : List Row) (y : String), BoundaryExt rows tmin tmax a →
      BoundaryExt rows tmin tmax (processModifier subj behav tmin tmax a y) := by
    rintro a y ⟨ext, rfl, hq⟩
    obtain ⟨ext2, heq, hq2⟩ := processModifier_append subj behav tmin tmax (rows ++ ext) y
    refine ⟨ext ++ ext2, by rw [heq, List.append_assoc], ?_⟩
    intro z hz
    rcases List.mem_append.mp hz with h | h
    · exact hq z h
    · exact hq2 z h
  have hmono : ∀ (a : List Row) (y : String) (r : Row),
      r ∈ a → r ∈ processModifier subj behav tmin tmax a y := by
    intro a y r hr
    obtain ⟨ext2, heq, _⟩ := processModifier_append subj behav tmin tmax a y
    rw [heq]
    exact List.mem_append_left _ hr
  constructor
  · intro hodd
    exact mem_foldl_of_mem (processModifier subj behav tmin tmax)
      (BoundaryExt rows tmin tmax) _ m hpres hmono
      (fun a ha => (processModifier_inserts rows subj behav m tmin tmax htm a ha).1 hodd)
      (distinctMods acc subj behav) acc hP hm2
  · intro hodd
    exact mem_foldl_of_mem (processModifier subj behav tmin tmax)
      (BoundaryExt rows tmin tmax) _ m hpres hmono
      (fun a ha => (processModifier_inserts rows subj behav m tmin tmax htm a ha).2 hodd)
      (distinctMods acc subj behav) acc hP hm2

lemma processBehavior_pres (ethogram : List EthogramEntry) (rows : List Row)
    (tmin tmax : ℚ) (s' : String) :
    ∀ (a : List Row) (b : String), BoundaryExt rows tmin tmax a →
      BoundaryExt rows tmin tmax (processBehavior ethogram s' tmin tmax a b) := by
  rintro a b ⟨ext, rfl, hq⟩
  obtain ⟨ext2, heq, hq2⟩ := processBehavior_append ethogram s' tmin tmax (rows ++ ext) b
  refine ⟨ext ++ ext2, by rw [heq, List.append_assoc], ?_⟩
  intro z hz
  rcases List.mem_append.mp hz with h | h
  · exact hq z h
  · exact hq2 z h

lemma processBehavior_mono (ethogram : List EthogramEntry) (tmin tmax : ℚ)
    (s' : String) :
    ∀ (a : List Row) (b : String) (r : Row), r ∈ a →
      r ∈ processBehavior ethogram s' tmin tmax a b := by
  intro a b r hr
  obtain ⟨ext2, heq, _⟩ := processBehavior_append ethogram s' tmin tmax a b
  rw [heq]
  exact List.mem_append_left _ hr

/-- C2.  For every (selected subject, selected State-typed behavior, distinct
observed modifier) key, clipping to the window `[tmin, tmax]` synthesizes a
START row exactly at `tmin` when the key's count of rows with time before the
window is odd, a STOP row exactly at `tmax` when its count of rows after the
window is odd, inserts them before the delete step (so they survive it), and
discards every row outside the window; e.g. two rows of one State behavior at
0 and 10 clipped to `[3, 6]` end as exactly the synthetic rows at 3 and 6
(the interval `[3, 6)`). -/
theorem time_budget_clip_boundary_synthesis
    (ethogram : List EthogramEntry) (selSubjects selBehaviors : List String)
    (tmin tmax : ℚ) (rows : List Row) (htm : tmin ≤ tmax)
    (subj behav m : String)
    (hsub : subj ∈ selSubjects) (hbeh : behav ∈ selBehaviors)
    (hnp : (match event_type ethogram behav with
        | some t0 => strContains (strUpper t0) "POINT"
        | none => false) = false)
    (hm : m ∈ distinctMods rows subj behav) :
    (Odd (countBelow rows subj behav m tmin) →
      (⟨subj, behav, "STATE", m, tmin⟩ : Row) ∈
        time_budget_clip ethogram selSubjects selBehaviors tmin tmax rows) ∧
    (Odd (countAbove rows subj behav m tmax) →
      (⟨subj, behav, "STATE", m, tmax⟩ : Row) ∈
        time_budget_clip ethogram selSubjects selBehaviors tmin tmax rows) ∧
    (∀ r ∈ time_budget_clip ethogram selSubjects selBehaviors tmin tmax rows,
      tmin ≤ r.occurence ∧ r.occurence ≤ tmax) ∧
    (time_budget_clip [⟨"run", "State event"⟩] ["s"] ["run"] 3 6
        [⟨"s", "run", "STATE", "", 0⟩, ⟨"s", "run", "STATE", "", 10⟩] =
      [⟨"s", "run", "STATE", "", 3⟩, ⟨"s", "run", "STATE", "", 6⟩]) := by
  have hBpres : ∀ (a : List Row) (s' : String), BoundaryExt rows tmin tmax a →
      BoundaryExt rows tmin tmax
        (selBehaviors.foldl (processBehavior ethogram s' tmin tmax) a) := by
    intro a s' ha
    exact foldl_preserves (processBehavior ethogram s' tmin tmax)
      (BoundaryExt rows tmin tmax)
      (fun a2 b2 h2 => processBehavior_pres ethogram rows tmin tmax s' a2 b2 h2)
      selBehaviors a ha
  have hBmono : ∀ (a : List Row) (s' : String) (r : Row), r ∈ a →
      r ∈ selBehaviors.foldl (processBehavior ethogram s' tmin tmax) a := by
    intro a s' r hr
    exact foldl_mem_mono (processBehavior ethogram s' tmin tmax)
      (fun a2 b2 r2 h2 => processBehavior_mono ethogram tmin tmax s' a2 b2 r2 h2)
      selBehaviors a r hr
  have hmemins : ∀ (target : Row),
      (∀ acc, BoundaryExt rows tmin tmax acc →
        target ∈ processBehavior ethogram subj tmin tmax acc behav) →
      target ∈ selSubjects.foldl
        (fun acc s' => selBehaviors.foldl (processBehavior ethogram s' tmin tmax) acc)
        rows := by
    intro target hx
    apply mem_foldl_of_mem _ (BoundaryExt rows tmin tmax) target subj hBpres hBmono
      ?_ selSubjects rows ⟨[], by simp, by simp⟩ hsub
    intro acc hacc
    exact mem_foldl_of_mem (processBehavior ethogram subj tmin tmax)
      (BoundaryExt rows tmin tmax) target behav
      (fun a2 b2 h2 => processBehavior_pres ethogram rows tmin tmax subj a2 b2 h2)
      (fun a2 b2 r2 h2 => processBehavior_mono ethogram tmin tmax subj a2 b2 r2 h2)
      hx selBehaviors acc hacc hbeh
  refine ⟨?_, ?_, ?_, ?_⟩
  · intro hodd
    rw [time_budget_clip]
    apply List.mem_filter.mpr
    constructor
    · exact hmemins _ (fun acc hacc =>
        (processBehavior_inserts ethogram rows subj behav m tmin tmax htm hnp hm
          acc hacc).1 hodd)
    · simp [not_lt.mpr htm]
  · intro hodd
    rw [time_budget_clip]
    apply List.mem_filter.mpr
    constructor
    · exact hmemins _ (fun acc hacc =>
        (processBehavior_inserts ethogram rows subj behav m tmin tmax htm hnp hm
          acc hacc).2 hodd)
    · simp [not_lt.mpr htm]
  · intro r hr
    have h2 := time_budget_clip_mem_bounds ethogram selSubjects selBehaviors
      tmin tmax rows r hr
    exact ⟨not_lt.mp h2.1, not_lt.mp h2.2⟩
  · have hpt : (match event_type [⟨"run", "State event"⟩] "run" with
        | some t0 => strContains (strUpper t0) "POINT"
        | none => false) = false := by decide
    norm_num [time_budget_clip, processBehavior, hpt, processModifier, distinctMods,
      distinctList, distinctAux, countBelow, countAbove]

/-- Witness for C2 at a concrete input. -/
theorem time_budget_clip_boundary_synthesis_witness :
    (⟨"s", "run", "STATE", "", 3⟩ : Row) ∈
      time_budget_clip [⟨"run", "State event"⟩] ["s"] ["run"] 3 6
        [⟨"s", "run", "STATE", "", 0⟩, ⟨"s", "run", "STATE", "", 10⟩] := by
  have h := time_budget_clip_boundary_synthesis [⟨"run", "State event"⟩] ["s"] ["run"]
    3 6 [⟨"s", "run", "STATE", "", 0⟩, ⟨"s", "run", "STATE", "", 10⟩]
    (by norm_num) "s" "run" "" (by decide) (by decide) (by decide) (by decide)
  apply h.1
  have : countBelow [⟨"s", "run", "STATE", "", 0⟩, ⟨"s", "run", "STATE", "", 10⟩]
      "s" "run" "" 3 = 1 := by
    norm_num [countBelow]
  rw [this]
  exact odd_one

/-! ### Excluded-behavior percentage (time_budget_widget.py 436-443 and
527-541) -/

/-- A duration cell of a time-budget row: a number, or one of the string
sentinels `"NA"`, `"-"`, `"UNPAIRED"`. -/
inductive DurVal where
  | num (q : ℚ) : DurVal
  | na : DurVal
  | dash : DurVal
  | unpaired : DurVal
deriving DecidableEq, Repr

/-- One aggregation record as consumed by the percentage column. -/
structure AggRow where
  subject : String
  behavior : String
  duration : DurVal
deriving DecidableEq, Repr

/-- `element["duration"] if not isinstance(element["duration"], str) else 0`. -/
def durAsNum : DurVal → ℚ
  | .num q => q
  | _ => 0

/-- The `excl_behaviors_total_time` dictionary (lines 436-443): every subject
of `out` gets a key, and each row of an excluded behavior adds its numeric
duration to its subject's total. -/
def excl_behaviors_total_time (out : List AggRow) (excluded : List String) :
    List (String × ℚ) :=
  out.foldl (fun d r =>
    let d1 := if (d.map Prod.fst).contains r.subject then d else d ++ [(r.subject, 0)]
    if excluded.contains r.behavior then
      alSet d1 r.subject ((alGet d1 r.subject).getD 0 + durAsNum r.duration)
    else d1) []

/-- The per-subject excluded total, written directly as a filtered sum. -/
def excl_total_spec (out : List AggRow) (excluded : List String) (subj : String) : ℚ :=
  ((out.filter (fun r => r.subject == subj && excluded.contains r.behavior)).map
    (fun r => durAsNum r.duration)).sum

/-- The "% of total length" cell of one `by_behavior` row (lines 527-541):
echo `0`/`NA` durations; `"-"` for `"-"`/`UNPAIRED` durations, a missing total
media length, or a non-positive denominator; otherwise the rounded percentage,
subtracting the subject's excluded total from the window length only when the
row's behavior is not itself excluded. -/
def percent_cell (total_obs_time : ℚ) (media_length_ok : Bool)
    (excluded : List String) (excl_tbl : List (String × ℚ)) (r : AggRow) : DurVal :=
  match r.duration with
  | .num q =>
    if q = 0 then .num 0
    else if media_length_ok then
      let tot :=
        if (alGet excl_tbl r.subject).isSome && !(excluded.contains r.behavior) then
          total_obs_time - (alGet excl_tbl r.subject).getD 0
        else total_obs_time
      if 0 < tot then .num (pyRound1 (q / tot * 100)) else .dash
    else .dash
  | .na => .na
  | .dash => .dash
  | .unpaired => .dash

lemma excl_total_spec_append (out : List AggRow) (r : AggRow) (excluded : List String)
    (subj : String) :
    excl_total_spec (out ++ [r]) excluded subj =
      excl_total_spec out excluded subj +
        (if r.subject = subj ∧ excluded.contains r.behavior = true then
          durAsNum r.duration else 0) := by
  rw [excl_total_spec, excl_total_spec, List.filter_append, List.map_append,
    List.sum_append]
  congr 1
  by_cases h1 : r.subject = subj
  · by_cases h2 : excluded.contains r.behavior = true
    · have hm : r.behavior ∈ excluded := by simpa using h2
      simp [List.filter_cons, h1, h2, hm]
    · have hm : r.behavior ∉ excluded := by simpa using h2
      simp [List.filter_cons, h1, h2, hm]
  · simp [List.filter_cons, h1]

lemma excl_tbl_value (excluded : List String) (out : List AggRow) :
    ∀ (subj : String),
      alGet (excl_behaviors_total_time out excluded) subj =
        (if subj ∈ out.map (fun x => x.subject) then
          some (excl_total_spec out excluded subj) else none) := by
  induction out using List.reverseRecOn with
  | nil =>
    intro subj
    simp [excl_behaviors_total_time, alGet, excl_total_spec]
  | append_singleton out r ih =>
    intro subj
    have hstep : excl_behaviors_total_time (out ++ [r]) excluded =
        (let d := excl_behaviors_total_time out excluded
         let d1 := if (d.map Prod.fst).contains r.subject then d
           else d ++ [(r.subject, 0)]
         if excluded.contains r.behavior then
           alSet d1 r.subject ((alGet d1 r.subject).getD 0 + durAsNum r.duration)
         else d1) := by
      rw [excl_behaviors_total_time, List.foldl_append]
      rfl
    rw [hstep]
    simp only []
    by_cases hsubj : subj = r.subject
    · subst hsubj
      by_cases hrs : r.subject ∈ out.map (fun x => x.subject)
      · have hk : ((excl_behaviors_total_time out excluded).map Prod.fst).contains
            r.subject = true := by
          have hne : alGet (excl_behaviors_total_time out excluded) r.subject ≠ none := by
            rw [ih r.subject, if_pos hrs]
            simp
          have hkm : r.subject ∈ (excl_behaviors_total_time out excluded).map Prod.fst := by
            by_contra hcon
            exact hne ((alGet_eq_none_iff _ _).mpr hcon)
          simpa using hkm
        rw [hk]
        simp only [if_true]
        have hget : alGet (excl_behaviors_total_time out excluded) r.subject =
            some (excl_total_spec out excluded r.subject) := by
          rw [ih r.subject, if_pos hrs]
        by_cases hex : excluded.contains r.behavior = true
        · rw [if_pos hex, alGet_alSet_self, hget]
          rw [if_pos (by simp), excl_total_spec_append, if_pos ⟨rfl, hex⟩]
          simp
        · rw [if_neg hex, hget]
          rw [if_pos (by simp), excl_total_spec_append,
            if_neg (fun hcon => hex hcon.2)]
          simp
      · have hnone : alGet (excl_behaviors_total_time out excluded) r.subject = none := by
          rw [ih r.subject, if_neg hrs]
        have hk : ((excl_behaviors_total_time out excluded).map Prod.fst).contains
            r.subject = false := by
          have := (alGet_eq_none_iff _ _).mp hnone
          simpa using this
        rw [hk]
        simp only [Bool.false_eq_true, if_false]
        have hget1 : alGet (excl_behaviors_total_time out excluded ++ [(r.subject, 0)])
            r.subject = some 0 := by
          rw [alGet_append_one, hnone]
          simp
        by_cases hex : excluded.contains r.behavior = true
        · rw [if_pos hex, alGet_alSet_self, hget1]
          rw [if_pos (by simp), excl_total_spec_append, if_pos ⟨rfl, hex⟩]
          have hzero : excl_total_spec out excluded r.subject = 0 := by
            rw [excl_total_spec]
            have hfil : out.filter (fun x => x.subject == r.subject &&
                excluded.contains x.behavior) = [] := by
              rw [List.filter_eq_nil_iff]
              intro x hx
              have hxs : x.subject ≠ r.subject := by
                intro hcon
                exact hrs (List.mem_map.mpr ⟨x, hx, hcon⟩)
              simp [hxs]
            rw [hfil]
            rfl
          rw [hzero]
          simp
        · rw [if_neg hex, hget1]
          rw [if_pos (by simp), excl_total_spec_append,
            if_neg (fun hcon => hex hcon.2)]
          have hzero : excl_total_spec out excluded r.subject = 0 := by
            rw [excl_total_spec]
            have hfil : out.filter (fun x => x.subject == r.subject &&
                excluded.contains x.behavior) = [] := by
              rw [List.filter_eq_nil_iff]
              intro x hx
              have hxs : x.subject ≠ r.subject := by
                intro hcon
                exact hrs (List.mem_map.mpr ⟨x, hx, hcon⟩)
              simp [hxs]
            rw [hfil]
            rfl
          rw [hzero]
          simp
    · have hmm2 : (subj ∈ (out ++ [r]).map (fun x => x.subject)) ↔
          subj ∈ out.map (fun x => x.subject) := by
        simp [hsubj]
      have hspec : excl_total_spec (out ++ [r]) excluded subj =
          excl_total_spec out excluded subj := by
        rw [excl_total_spec_append, if_neg (fun hcon => hsubj hcon.1.symm)]
        simp
      have hne : subj ≠ r.subject := hsubj
      have hd1 : ∀ (d1 : List (String × ℚ)),
          alGet d1 subj = alGet (excl_behaviors_total_time out excluded) subj →
          alGet (if excluded.contains r.behavior then
            alSet d1 r.subject ((alGet d1 r.subject).getD 0 + durAsNum r.duration)
          else d1) subj = alGet (excl_behaviors_total_time out excluded) subj := by
        intro d1 hd1get
        by_cases hex : excluded.contains r.behavior = true
        · rw [if_pos hex, alGet_alSet_ne _ _ _ _ hne, hd1get]
        · rw [if_neg hex, hd1get]
      rw [hd1 _ ?_]
      · rw [ih subj]
        by_cases hmem : subj ∈ out.map (fun x => x.subject)
        · rw [if_pos hmem, if_pos (hmm2.mpr hmem), hspec]
        · rw [if_neg hmem, if_neg (fun hcon => hmem (hmm2.mp hcon))]
      · by_cases hk : ((excl_behaviors_total_time out excluded).map Prod.fst).contains
            r.subject = true
        · rw [if_pos hk]
        · rw [if_neg hk, alGet_append_one]
          rcases hg : alGet (excl_behaviors_total_time out excluded) subj with _ | v
          · simp [hne]
          · simp

/-- Counterexample to C5.  With one row `{subject s, behavior b, duration 2}`,
`b` excluded and a window length of 10, the excluded row's own percentage is
computed against the raw window length (2 / 10 × 100 = 20), not against the
reduced denominator of the claim (2 / (10 − 2) × 100 = 25): the subtraction at
time_budget_widget.py 533-535 is guarded by
`row["behavior"] not in parameters[EXCLUDED_BEHAVIORS]`. -/
theorem percent_cell_excluded_counterexample :
    percent_cell 10 true ["b"]
        (excl_behaviors_total_time [⟨"s", "b", DurVal.num 2⟩] ["b"])
        ⟨"s", "b", DurVal.num 2⟩ = DurVal.num 20 ∧
      DurVal.num (20 : ℚ) ≠
        DurVal.num (pyRound1
          (2 / (10 - excl_total_spec [⟨"s", "b", DurVal.num 2⟩] ["b"] "s") * 100)) := by
  constructor
  · norm_num [percent_cell, excl_behaviors_total_time, alSet, alGet, durAsNum,
      pyRound1, roundHalfEven]
  · norm_num [excl_total_spec, durAsNum, pyRound1, roundHalfEven]

/-- C5 (amended).  Excluded-behavior totals are summed once per subject over
the output rows (treating non-numeric sentinel durations as 0) and subtracted
from the subject's window length for the percentage of every non-excluded
behavior; an excluded behavior's own percentage uses the raw window length. -/
theorem percent_cell_excluded_denominator
    (out : List AggRow) (excluded : List String) (total : ℚ) (r : AggRow)
    (hr : r ∈ out) (q : ℚ) (hd : r.duration = DurVal.num q) (hq : q ≠ 0) :
    (excluded.contains r.behavior = false →
      percent_cell total true excluded (excl_behaviors_total_time out excluded) r =
        (if 0 < total - excl_total_spec out excluded r.subject then
          DurVal.num
            (pyRound1 (q / (total - excl_total_spec out excluded r.subject) * 100))
        else DurVal.dash)) ∧
    (excluded.contains r.behavior = true →
      percent_cell total true excluded (excl_behaviors_total_time out excluded) r =
        (if 0 < total then DurVal.num (pyRound1 (q / total * 100))
        else DurVal.dash)) := by
  have hsubj : r.subject ∈ out.map (fun x => x.subject) := List.mem_map.mpr ⟨r, hr, rfl⟩
  have hv : alGet (excl_behaviors_total_time out excluded) r.subject =
      some (excl_total_spec out excluded r.subject) := by
    rw [excl_tbl_value excluded out r.subject, if_pos hsubj]
  constructor
  · intro hexcl
    simp only [percent_cell, hd, hv, hexcl]
    rw [if_neg hq]
    simp only [Option.isSome_some, Bool.not_false, Bool.and_true, if_true,
      Option.getD_some]
  · intro hexcl
    simp only [percent_cell, hd, hv, hexcl]
    rw [if_neg hq]
    simp only [Option.isSome_some, Bool.not_true, Bool.and_false,
      Bool.false_eq_true, if_false]
    rw [if_pos trivial]

/-- Witness for the amended C5 at a concrete input: a non-excluded behavior's
percentage uses the reduced denominator. -/
theorem percent_cell_excluded_denominator_witness :
    percent_cell 10 true ["b"]
        (excl_behaviors_total_time
          [⟨"s", "c", DurVal.num 2⟩, ⟨"s", "b", DurVal.num 4⟩] ["b"])
        ⟨"s", "c", DurVal.num 2⟩ =
      (if 0 < (10 : ℚ) - excl_total_spec
            [⟨"s", "c", DurVal.num 2⟩, ⟨"s", "b", DurVal.num 4⟩] ["b"] "s" then
        DurVal.num (pyRound1 (2 / ((10 : ℚ) - excl_total_spec
          [⟨"s", "c", DurVal.num 2⟩, ⟨"s", "b", DurVal.num 4⟩] ["b"] "s") * 100))
      else DurVal.dash) :=
  (percent_cell_excluded_denominator
      [⟨"s", "c", DurVal.num 2⟩, ⟨"s", "b", DurVal.num 4⟩] ["b"] 10
      ⟨"s", "c", DurVal.num 2⟩ (by simp) 2 rfl (by norm_num)).1 (by decide)

/-- `project_functions.fix_unpaired_state_events` (lines 1385-1440): for each
subject in `sorted(set(subjects))` order and each of the subject's behaviors in
`sorted(set(behaviors))` order that is in the ethogram and State-typed, run the
append/remove list matching over the (subject, behavior) stream; for each
`[behavior, modifier]` pair left open, append one closing event whose time is
`max([fix_at_time] + [x[0] for x in closing_events_to_add]) + dec("0.001")`,
with empty comment.  The `memTime` dict tracked alongside `lst` is unused by
the closing loop (lines 1432-1438). -/
def fix_unpaired_state_events (ethogram : List EthogramEntry) (events : List Event)
    (fix_at_time : ℚ) : List Event :=
  (sortedSet (events.map (fun e => e.subject))).foldl (fun acc subject =>
    (sortedSet ((events.filter (fun e => e.subject == subject)).map
        (fun e => e.code))).foldl
      (fun acc behavior =>
        if stateGuard ethogram behavior then
          (streamFold (events.filter
              (fun e => e.code == behavior && e.subject == subject))).lst.foldl
            (fun acc bm =>
              acc ++ [Event.mk
                ((acc.map (fun e => e.time)).foldl max fix_at_time + 1/1000)
                subject behavior bm.2 ""])
            acc
        else acc)
      acc)
    []

/-- Invariant of the `closing_events_to_add` accumulator: every entry's time is
the running maximum of `fix_at_time` and all earlier entries' times, plus
0.001, and its comment is empty. -/
def FixInv (fix_at_time : ℚ) (l : List Event) : Prop :=
  ∀ (i : Nat) (e : Event), l[i]? = some e →
    e.time = ((l.take i).map (fun x => x.time)).foldl max fix_at_time + 1/1000 ∧
      e.comment = ""

lemma mem_le_foldl_max (l : List ℚ) : ∀ (t x : ℚ), x ∈ l → x ≤ l.foldl max t := by
  induction l with
  | nil => intro t x hx; cases hx
  | cons y ys ih =>
    intro t x hx
    rcases List.mem_cons.mp hx with h | h
    · subst h
      exact le_trans (le_max_right t x) (le_foldl_max ys (max t x))
    · exact ih (max t y) x h

lemma fixInv_nil (fix_at_time : ℚ) : FixInv fix_at_time [] := by
  intro i e he
  simp at he

lemma fixInv_append (fix_at_time : ℚ) (acc : List Event) (s b m : String)
    (h : FixInv fix_at_time acc) :
    FixInv fix_at_time (acc ++
      [Event.mk ((acc.map (fun e => e.time)).foldl max fix_at_time + 1/1000)
        s b m ""]) := by
  intro i e he
  by_cases hi : i < acc.length
  · rw [List.getElem?_append, if_pos hi] at he
    have hstep := h i e he
    rw [List.take_append_of_le_length (le_of_lt hi)]
    exact hstep
  · push_neg at hi
    rw [List.getElem?_append, if_neg (by omega)] at he
    rcases Nat.lt_or_ge i (acc.length + 1) with hlt | hge
    · have hi0 : i - acc.length = 0 := by omega
      rw [hi0] at he
      simp only [List.getElem?_cons_zero, Option.some.injEq] at he
      have hieq : i = acc.length := by omega
      subst hieq
      rw [List.take_append_of_le_length (le_refl _), List.take_length]
      constructor
      · rw [← he]
      · rw [← he]
    · have hk : 1 ≤ i - acc.length := by omega
      rw [List.getElem?_eq_none (by simpa using hk)] at he
      cases he

lemma foldl_fixInv {α : Type} (fix_at_time : ℚ) (f : List Event → α → List Event)
    (hf : ∀ (acc : List Event) (x : α),
      FixInv fix_at_time acc → FixInv fix_at_time (f acc x)) :
    ∀ (l : List α) (acc : List Event),
      FixInv fix_at_time acc → FixInv fix_at_time (l.foldl f acc) := by
  intro l
  induction l with
  | nil => intro acc h; exact h
  | cons x xs ih => intro acc h; exact ih (f acc x) (hf acc x h)

lemma fixInv_pairwise (fix_at_time : ℚ) (l : List Event)
    (h : FixInv fix_at_time l) :
    List.Pairwise (fun a b => a.time < b.time) l := by
  rw [List.pairwise_iff_getElem]
  intro i j hi hj hij
  have hj2 := h j (l.get ⟨j, hj⟩) (by rw [List.getElem?_eq_getElem hj]; rfl)
  have hlen : i < (l.take j).length := by
    rw [List.length_take]
    omega
  have hmem : l.get ⟨i, hi⟩ ∈ l.take j := by
    have hgt : (l.take j).get ⟨i, hlen⟩ = l.get ⟨i, hi⟩ := by
      simp
    rw [← hgt]
    exact List.get_mem _ _ hlen
  have htm : (l.get ⟨i, hi⟩).time ∈ (l.take j).map (fun x => x.time) :=
    List.mem_map_of_mem _ hmem
  have hle : (l.get ⟨i, hi⟩).time ≤
      ((l.take j).map (fun x => x.time)).foldl max fix_at_time :=
    mem_le_foldl_max _ _ _ htm
  have : (l.get ⟨i, hi⟩).time < (l.get ⟨j, hj⟩).time := by
    rw [hj2.1]
    linarith
  exact this

/-- C8: every synthetic closing event produced by `fix_unpaired_state_events`
has time equal to the maximum of `fix_at_time` and all previously synthesized
times, plus 0.001, and an empty comment; consequently the synthesized times
are strictly increasing, so no two synthesized closing events collide. -/
theorem fix_unpaired_state_events_times (ethogram : List EthogramEntry)
    (events : List Event) (fix_at_time : ℚ) :
    (∀ (i : Nat) (e : Event),
        (fix_unpaired_state_events ethogram events fix_at_time)[i]? = some e →
          e.time = (((fix_unpaired_state_events ethogram events fix_at_time).take i).map
              (fun x => x.time)).foldl max fix_at_time + 1/1000 ∧
            e.comment = "") ∧
      List.Pairwise (fun a b => a.time < b.time)
        (fix_unpaired_state_events ethogram events fix_at_time) := by
  have hinv : FixInv fix_at_time (fix_unpaired_state_events ethogram events fix_at_time) := by
    rw [fix_unpaired_state_events]
    apply foldl_fixInv _ _ _ _ _ (fixInv_nil fix_at_time)
    intro acc subject hacc
    apply foldl_fixInv _ _ _ _ _ hacc
    intro acc2 behavior hacc2
    by_cases hg : stateGuard ethogram behavior
    · rw [if_pos hg]
      apply foldl_fixInv _ _ _ _ _ hacc2
      intro acc3 bm hacc3
      exact fixInv_append fix_at_time acc3 subject behavior bm.2 hacc3
    · rw [if_neg hg]
      exact hacc2
  exact ⟨fun i e he => hinv i e he, fixInv_pairwise fix_at_time _ hinv⟩

/-- Witness for C8 at a concrete input: one unpaired State event for the only
subject yields one synthetic close at `fix_at_time + 0.001` with empty
comment. -/
theorem fix_unpaired_state_events_times_witness :
    (Event.mk (2 + 1/1000) "" "run" "" "").time =
        (((fix_unpaired_state_events [EthogramEntry.mk "run" "State event"]
              [Event.mk 0 "" "run" "" ""] 2).take 0).map
            (fun x => x.time)).foldl max 2 + 1/1000 ∧
      (Event.mk (2 + 1/1000) "" "run" "" "").comment = "" :=
  (fix_unpaired_state_events_times [EthogramEntry.mk "run" "State event"]
      [Event.mk 0 "" "run" "" ""] 2).1 0 (Event.mk (2 + 1/1000) "" "run" "" "")
    (by rfl)
